import Mathlib

/-!
Verification of the rope library (src/src/rope.rs) against its
natural-language specification.

The rope façade (`Rope` in src/src/rope.rs) is embedded directly from the
source.  The node-level tree operations (`tree.rs`), the builder
(`rope_builder.rs`) and the grapheme utilities (`str_utils.rs`) are not part
of the provided sources; definitions for them are modelled from the
specification (sections 4.2-4.4, 4.6) and are marked as such in their doc
comments.

Text is embedded as `List Char` (Unicode scalar values); char indices are
list indices, and byte counts are computed from the UTF-8 size of each
scalar.  Machine integers are modelled as `Nat` (no arithmetic in the
library overflows for the inputs considered).
-/

namespace Ropey

/-- Text is a sequence of Unicode scalar values (chars). -/
abbrev Text := List Char

/-- Number of bytes of the UTF-8 encoding of a scalar value. -/
def charBytes (c : Char) : Nat :=
  if c.toNat < 0x80 then 1
  else if c.toNat < 0x800 then 2
  else if c.toNat < 0x10000 then 3
  else 4

/-- Number of bytes of the UTF-8 encoding of a text. -/
def textBytes (t : Text) : Nat := (t.map charBytes).sum

theorem textBytes_nil : textBytes [] = 0 := rfl

theorem textBytes_cons (c : Char) (t : Text) :
    textBytes (c :: t) = charBytes c + textBytes t := by
  simp [textBytes]

theorem textBytes_append (a b : Text) :
    textBytes (a ++ b) = textBytes a + textBytes b := by
  simp [textBytes]

theorem charBytes_pos (c : Char) : 0 < charBytes c := by
  unfold charBytes; split <;> [omega; skip]; split <;> [omega; skip]; split <;> omega

theorem charBytes_le_four (c : Char) : charBytes c ≤ 4 := by
  unfold charBytes; split <;> [omega; skip]; split <;> [omega; skip]; split <;> omega

theorem textBytes_take_le (t : Text) (k : Nat) :
    textBytes (t.take k) ≤ textBytes t := by
  conv_rhs => rw [← List.take_append_drop k t]
  rw [textBytes_append]; omega

theorem length_le_textBytes (t : Text) : t.length ≤ textBytes t := by
  induction t with
  | nil => simp [textBytes]
  | cons c t ih =>
    rw [textBytes_cons]
    have := charBytes_pos c
    simp only [List.length_cons]; omega

/-- Splicing a text into another at a char index (string-level insertion). -/
def splice (t : Text) (i : Nat) (s : Text) : Text :=
  t.take i ++ s ++ t.drop i

/-- Maximum number of bytes in a leaf.  Modelled from the spec (§3,
constants): the sources for `tree.rs` are not provided; the spec recommends
`MAX_BYTES ≈ 334`. -/
def MAX_BYTES : Nat := 334

/-- Maximum number of children of an internal node.  Modelled from the spec
(§3, constants). -/
def MAX_CHILDREN : Nat := 16

/-- Minimum number of children of an internal node.  Modelled from the spec
(§3, constants): `MIN_CHILDREN = MAX_CHILDREN / 2`. -/
def MIN_CHILDREN : Nat := MAX_CHILDREN / 2

/-- The grapheme segmentation oracle.  The spec (§1, §6) treats grapheme
segmentation as an external collaborator: a pure boundary predicate over a
chunk seam plus intra-string boundary navigation.  Offsets are char
offsets in this embedding (every char offset is a UTF-8-safe position). -/
structure GraphemeOracle where
  isBoundary : Text → Text → Bool
  prevBoundary : Text → Nat → Nat
  nextBoundary : Text → Nat → Nat

/-- A node of the rope tree: either a leaf holding a text fragment or an
internal node holding an ordered list of children.  Modelled from the spec
(§3, data model); `tree.rs` is not among the provided sources.  The stored
per-child `TextInfo` is represented implicitly: spec invariant 4 states the
cached info always equals the recomputed info, so this embedding computes
info from the children directly. -/
inductive Node where
  | leaf (text : Text)
  | internal (children : List Node)
deriving Repr

mutual

/-- The leaf texts of a node in in-order traversal (the chunks). -/
def Node.leaves : Node → List Text
  | .leaf t => [t]
  | .internal cs => leavesAux cs

/-- The leaf texts of a list of nodes, in order. -/
def leavesAux : List Node → List Text
  | [] => []
  | c :: rest => c.leaves ++ leavesAux rest

end

/-- The text of a node: concatenation of its leaf texts in order. -/
def Node.text (n : Node) : Text := n.leaves.flatten

/-- The text of a list of nodes. -/
def textAux (cs : List Node) : Text := (leavesAux cs).flatten

theorem leavesAux_append (a b : List Node) :
    leavesAux (a ++ b) = leavesAux a ++ leavesAux b := by
  induction a with
  | nil => simp [leavesAux]
  | cons c rest ih => simp [leavesAux, ih]

theorem textAux_nil : textAux [] = [] := rfl

theorem textAux_cons (c : Node) (rest : List Node) :
    textAux (c :: rest) = c.text ++ textAux rest := by
  simp [textAux, leavesAux, Node.text]

theorem textAux_append (a b : List Node) :
    textAux (a ++ b) = textAux a ++ textAux b := by
  simp [textAux, leavesAux_append]

theorem text_internal (cs : List Node) :
    (Node.internal cs).text = textAux cs := by
  simp [Node.text, Node.leaves, textAux]

theorem text_leaf (t : Text) : (Node.leaf t).text = t := by
  simp [Node.text, Node.leaves]

/-- Number of chars in a node's subtree. -/
def Node.charCount (n : Node) : Nat := n.text.length

/-- Number of bytes in a node's subtree. -/
def Node.byteCount (n : Node) : Nat := textBytes n.text

/-- Height of the tree.  Modelled from the spec (§3 invariant 1: all
leaf-to-root paths have equal length, so the depth of the first child
determines the depth, matching the source's `children.nodes()[0].depth()`
convention). -/
def Node.depth : Node → Nat
  | .leaf _ => 0
  | .internal [] => 1
  | .internal (c :: _) => 1 + c.depth

/-- Whether the node is a leaf. -/
def Node.isLeaf : Node → Bool
  | .leaf _ => true
  | .internal _ => false

/-- Number of children of the node (0 for a leaf). -/
def Node.childCount : Node → Nat
  | .leaf _ => 0
  | .internal cs => cs.length

/-- The text of a leaf node (empty for an internal node; the source only
calls this on leaves). -/
def Node.leafText : Node → Text
  | .leaf t => t
  | .internal _ => []

/-! ### Leaf-level splitting -/

/-- Longest front of `t` whose byte count stays within `budget`, paired with
the rest.  Used to model the UTF-8-safe leaf split of the spec (§4.2): in
this embedding every char position is a UTF-8-safe position. -/
def takeBytes : Text → Nat → Text × Text
  | [], _ => ([], [])
  | c :: rest, budget =>
    if charBytes c ≤ budget then
      let p := takeBytes rest (budget - charBytes c)
      (c :: p.1, p.2)
    else ([], c :: rest)

theorem takeBytes_append (t : Text) (budget : Nat) :
    (takeBytes t budget).1 ++ (takeBytes t budget).2 = t := by
  induction t generalizing budget with
  | nil => simp [takeBytes]
  | cons c rest ih =>
    unfold takeBytes
    by_cases h : charBytes c ≤ budget
    · simp only [h, if_pos]
      simpa using ih (budget - charBytes c)
    · simp [h]

theorem takeBytes_snd_length_le (t : Text) (budget : Nat) :
    (takeBytes t budget).2.length ≤ t.length := by
  induction t generalizing budget with
  | nil => simp [takeBytes]
  | cons c rest ih =>
    unfold takeBytes
    by_cases h : charBytes c ≤ budget
    · simp only [h, if_pos]
      exact Nat.le_succ_of_le (ih (budget - charBytes c))
    · simp [h]

theorem takeBytes_snd_length_lt (c : Char) (rest : Text) (budget : Nat)
    (h : charBytes c ≤ budget) :
    (takeBytes (c :: rest) budget).2.length < (c :: rest).length := by
  unfold takeBytes
  simp only [h, if_pos, List.length_cons]
  exact Nat.lt_succ_of_le (takeBytes_snd_length_le rest (budget - charBytes c))

/-! ### Node insert -/

/-- Modelled from the spec (§4.2, leaf insert; `tree.rs` is not among the
provided sources): splice `s` into the leaf text at char index `i`; if the
result exceeds `MAX_BYTES`, split at the largest UTF-8-safe point within
`MAX_BYTES`, returning the right part as a residual leaf.  When the
insertion lands on the leaf's start or end seam, the local byte position of
that seam is returned for later grapheme repair. -/
def leafInsert (t : Text) (i : Nat) (s : Text) : Node × Option Node × Option Nat :=
  let newText := splice t i s
  let seam : Option Nat :=
    if i = 0 then some 0
    else if i = t.length then some (textBytes newText)
    else none
  if textBytes newText ≤ MAX_BYTES then (Node.leaf newText, none, seam)
  else
    let p := takeBytes newText MAX_BYTES
    (Node.leaf p.1, some (Node.leaf p.2), seam)

mutual

/-- Modelled from the spec (§4.2-§4.3, insert; `tree.rs` is not among the
provided sources): descend to the child containing the char index, insert
there, place a residual child to its right, and split this node at the
midpoint when it exceeds `MAX_CHILDREN`, returning the right half as this
node's residual.  Seam byte positions bubble up as absolute offsets.
An `internal []` node cannot arise in the library (spec invariant 2); the
model lets it behave as an empty leaf so the definition is total. -/
def Node.insertRec : Node → Nat → Text → Node × Option Node × Option Nat
  | .leaf t, i, s => leafInsert t i s
  | .internal [], i, s => leafInsert [] i s
  | .internal (c :: rest), i, s =>
    let p := insertChildren (c :: rest) i s
    if p.1.length ≤ MAX_CHILDREN then (Node.internal p.1, none, p.2)
    else
      (Node.internal (p.1.take (p.1.length / 2)),
       some (Node.internal (p.1.drop (p.1.length / 2))), p.2)

/-- Insertion into an ordered child list: walk left to right until the
running char count would exceed the index (spec §4.1), inserting into the
last child when the index lies at or past the end. -/
def insertChildren : List Node → Nat → Text → List Node × Option Nat
  | [], _, _ => ([], none)
  | c :: rest, i, s =>
    if i < c.charCount ∨ rest.isEmpty then
      let p := c.insertRec i s
      match p.2.1 with
      | some r => (p.1 :: r :: rest, p.2.2)
      | none => (p.1 :: rest, p.2.2)
    else
      let p := insertChildren rest (i - c.charCount) s
      (c :: p.1, p.2.map (fun b => b + c.byteCount))

end

/-! ### Node remove -/

/-- Modelled from the spec (§4.3, remove; `tree.rs` is not among the
provided sources): excise the char range from a leaf.  The `need_zip` flag
reports an undersized (empty) leaf; the seam is the byte offset of the cut,
or none when both endpoints land on the leaf's own boundaries. -/
def leafRemove (t : Text) (start stop : Nat) : Node × Bool × Option Nat :=
  let newText := t.take start ++ t.drop stop
  let seam : Option Nat :=
    if start = 0 ∧ stop = t.length then none else some (textBytes (t.take start))
  (Node.leaf newText, newText.isEmpty, seam)

mutual

/-- Modelled from the spec (§4.3, remove; `tree.rs` is not among the
provided sources): descend to the boundary children, drop fully covered
children, recurse into partially covered ones.  Children may be left
undersized; the `need_zip` flag is returned, and a seam byte offset is
returned for grapheme repair. -/
def Node.removeRec : Node → Nat → Nat → Node × Bool × Option Nat
  | .leaf t, start, stop => leafRemove t start stop
  | .internal cs, start, stop =>
    let p := removeChildren cs start stop
    (Node.internal p.1, p.2.1, p.2.2)

/-- Removal of a char range from an ordered child list. -/
def removeChildren : List Node → Nat → Nat → List Node × Bool × Option Nat
  | [], _, _ => ([], false, none)
  | c :: rest, start, stop =>
    let cc := c.charCount
    if cc ≤ start then
      -- the range lies entirely to the right of this child
      let p := removeChildren rest (start - cc) (stop - cc)
      (c :: p.1, p.2.1, p.2.2.map (fun b => b + c.byteCount))
    else if stop ≤ cc then
      -- the range lies entirely within this child
      if start = 0 ∧ stop = cc then
        -- fully covered child: drop it; both endpoints land on child boundaries
        (rest, true, none)
      else
        let p := c.removeRec start stop
        (p.1 :: rest, p.2.1, p.2.2)
    else
      -- the range straddles this child's right boundary
      let p := c.removeRec start cc
      let q := removeChildren rest 0 (stop - cc)
      (p.1 :: q.1, true, some (textBytes (c.text.take start)))

end

/-! ### Node split -/

mutual

/-- Modelled from the spec (§4.3, split; `tree.rs` is not among the
provided sources): yields two subtrees whose concatenation equals the
original; at an internal node the child containing the index is split
recursively, the leftward children go to the left result and the rightward
children to the right result. -/
def Node.splitRec : Node → Nat → Node × Node
  | .leaf t, i => (.leaf (t.take i), .leaf (t.drop i))
  | .internal cs, i =>
    let p := splitChildren cs i
    (.internal p.1, .internal p.2)

/-- Splitting an ordered child list at a char index. -/
def splitChildren : List Node → Nat → List Node × List Node
  | [], _ => ([], [])
  | c :: rest, i =>
    let cc := c.charCount
    if i < cc then
      let p := c.splitRec i
      ([p.1], p.2 :: rest)
    else if i = cc then
      ([c], rest)
    else
      let p := splitChildren rest (i - cc)
      (c :: p.1, p.2)

end

/-! ### Append-at-depth and prepend-at-depth -/

/-- Modelled from the spec (§4.3, append-at-depth; `tree.rs` is not among
the provided sources): graft `other`, a subtree `d` levels shallower, onto
the rightmost spine of `self`.  At depth zero two same-height internal
nodes merge their child lists (splitting evenly when oversized) and two
same-height leaves become siblings via the residual; otherwise descend into
the last child and insert the bubbled-up residual to its right, splitting
at the midpoint when the node exceeds `MAX_CHILDREN`. -/
def Node.appendAtDepth : Node → Node → Nat → Node × Option Node
  | .internal cs1, .internal cs2, 0 =>
    let cs := cs1 ++ cs2
    if cs.length ≤ MAX_CHILDREN then (.internal cs, none)
    else (.internal (cs.take (cs.length / 2)), some (.internal (cs.drop (cs.length / 2))))
  | .leaf t1, o, 0 => (.leaf t1, some o)
  | .internal cs1, .leaf t2, 0 => (.internal cs1, some (.leaf t2))
  | .internal cs, o, d + 1 =>
    match cs.getLast? with
    | some lastC =>
      let p := Node.appendAtDepth lastC o d
      let cs2 := cs.dropLast ++ p.1 :: p.2.toList
      if cs2.length ≤ MAX_CHILDREN then (.internal cs2, none)
      else
        (.internal (cs2.take (cs2.length / 2)), some (.internal (cs2.drop (cs2.length / 2))))
    | none => (.internal cs, some o)
  | .leaf t, o, _ + 1 => (.leaf t, some o)

/-- Modelled from the spec (§4.3, prepend-at-depth; `tree.rs` is not among
the provided sources): mirror image of append-at-depth, grafting `other`
onto the leftmost spine of `self`; a residual bubbles up as a new leftmost
sibling. -/
def Node.prependAtDepth : Node → Node → Nat → Node × Option Node
  | .internal cs1, .internal cs2, 0 =>
    let cs := cs2 ++ cs1
    if cs.length ≤ MAX_CHILDREN then (.internal cs, none)
    else (.internal (cs.drop (cs.length / 2)), some (.internal (cs.take (cs.length / 2))))
  | .leaf t1, o, 0 => (.leaf t1, some o)
  | .internal cs1, .leaf t2, 0 => (.internal cs1, some (.leaf t2))
  | .internal (c :: rest), o, d + 1 =>
    let p := Node.prependAtDepth c o d
    let cs2 := p.2.toList ++ p.1 :: rest
    if cs2.length ≤ MAX_CHILDREN then (.internal cs2, none)
    else
      (.internal (cs2.drop (cs2.length / 2)), some (.internal (cs2.take (cs2.length / 2))))
  | .internal [], o, _ + 1 => (.internal [], some o)
  | .leaf t, o, _ + 1 => (.leaf t, some o)

/-! ### Zip-fix (re-balancing after edits) -/

/-- Modelled from the spec (§3 invariants 2-3, §4.3 zip-fix; `tree.rs` is
not among the provided sources): a leaf is undersized when it has fewer
than one byte, an internal node when it has fewer than `MIN_CHILDREN`
children. -/
def Node.undersized : Node → Bool
  | .leaf t => t.isEmpty
  | .internal cs => cs.length < MIN_CHILDREN

/-- Modelled from the spec (§4.3, zip-fix; `tree.rs` is not among the
provided sources): merge two adjacent sibling nodes; when the merged node
would exceed `MAX_BYTES` (leaves) or `MAX_CHILDREN` (internals), re-split
evenly instead. -/
def mergeNodes : Node → Node → List Node
  | .leaf t1, .leaf t2 =>
    let t := t1 ++ t2
    if textBytes t ≤ MAX_BYTES then [.leaf t]
    else
      let p := takeBytes t ((textBytes t + 1) / 2)
      [.leaf p.1, .leaf p.2]
  | .internal cs1, .internal cs2 =>
    let cs := cs1 ++ cs2
    if cs.length ≤ MAX_CHILDREN then [.internal cs]
    else [.internal (cs.take (cs.length / 2)), .internal (cs.drop (cs.length / 2))]
  | .leaf t1, .internal cs2 => [.leaf t1, .internal cs2]
  | .internal cs1, .leaf t2 => [.internal cs1, .leaf t2]

/-- Fix the child at the given position: when it is undersized, merge it
with its adjacent sibling (the right one, or the left one for the last
child).  Modelled from the spec (§4.3, zip-fix). -/
def fixAt : List Node → Nat → List Node
  | [], _ => []
  | [c], _ => [c]
  | c1 :: c2 :: rest, 0 =>
    if c1.undersized then mergeNodes c1 c2 ++ rest else c1 :: c2 :: rest
  | [c1, c2], _ + 1 =>
    if c2.undersized then mergeNodes c1 c2 else [c1, c2]
  | c1 :: c2 :: c3 :: rest, j + 1 => c1 :: fixAt (c2 :: c3 :: rest) j

mutual

/-- Modelled from the spec (§4.3, zip-fix; `tree.rs` is not among the
provided sources): restore the size invariants along the spine at the given
char index, merging undersized children with an adjacent sibling bottom-up. -/
def Node.zipFix : Node → Nat → Node
  | .leaf t, _ => .leaf t
  | .internal cs, i => .internal (zipFixChildren cs i)

/-- Zip-fix over an ordered child list at a char index. -/
def zipFixChildren : List Node → Nat → List Node
  | [], _ => []
  | c :: rest, i =>
    if i < c.charCount ∨ rest.isEmpty then fixAt (c.zipFix i :: rest) 0
    else c :: zipFixChildren rest (i - c.charCount)

end

mutual

/-- Modelled from the spec (§4.3, zip-fix; `tree.rs` is not among the
provided sources): restore the size invariants along the leftmost spine. -/
def Node.zipFixLeft : Node → Node
  | .leaf t => .leaf t
  | .internal cs => .internal (zflChildren cs)

/-- Zip-fix along the leftmost spine of a child list. -/
def zflChildren : List Node → List Node
  | [] => []
  | c :: rest => fixAt (c.zipFixLeft :: rest) 0

end

mutual

/-- Modelled from the spec (§4.3, zip-fix; `tree.rs` is not among the
provided sources): restore the size invariants along the rightmost spine. -/
def Node.zipFixRight : Node → Node
  | .leaf t => .leaf t
  | .internal cs => .internal (zfrChildren cs)

/-- Zip-fix along the rightmost spine of a child list. -/
def zfrChildren : List Node → List Node
  | [] => []
  | [c] => fixAt [c.zipFixRight] 0
  | [c1, c2] => fixAt [c1, c2.zipFixRight] 1
  | c1 :: c2 :: c3 :: rest => c1 :: zfrChildren (c2 :: c3 :: rest)

end

/-! ### Grapheme seam repair -/

/-- Modelled from the spec (§4.4, grapheme seam repair; `str_utils.rs` and
`tree.rs` are not among the provided sources): repair a single seam between
two adjacent non-empty chunks.  When the seam is not a grapheme boundary,
shift the tail of the left chunk after the nearest boundary at or before
the join into the right chunk (only when `allowLeft` is set), otherwise
shift the head of the right chunk up to the next boundary after the join
into the left chunk.  Offsets are char offsets in this embedding. -/
def fixSeamPair (O : GraphemeOracle) (allowLeft : Bool) (L R : Text) : Text × Text :=
  if O.isBoundary L R then (L, R)
  else
    let j := L.length
    let combined := L ++ R
    let pb := O.prevBoundary combined j
    if pb < j ∧ allowLeft then (combined.take pb, combined.drop pb)
    else
      let nb := O.nextBoundary combined j
      (combined.take nb, combined.drop nb)

theorem fixSeamPair_append (O : GraphemeOracle) (al : Bool) (L R : Text) :
    (fixSeamPair O al L R).1 ++ (fixSeamPair O al L R).2 = L ++ R := by
  unfold fixSeamPair
  by_cases h : O.isBoundary L R <;> simp [h]
  by_cases h2 : O.prevBoundary (L ++ R) L.length < L.length ∧ al = true <;> simp [h2]

/-- Modelled from the spec (§4.4, grapheme seam repair): walk the in-order
chunk sequence to the seam at absolute byte offset `b` (skipping an empty
chunk sitting exactly on the seam) and repair the adjacent non-empty pair
there.  Offsets interior to a chunk, offset 0 and offsets past the end name
no seam and leave the chunks unchanged. -/
def fixSeamLeaves (O : GraphemeOracle) (al : Bool) : List Text → Nat → List Text
  | [], _ => []
  | [t], _ => [t]
  | t1 :: t2 :: rest, b =>
    if b = 0 then t1 :: t2 :: rest
    else if b < textBytes t1 then t1 :: t2 :: rest
    else if b = textBytes t1 then
      if t2.isEmpty then
        match fixSeamLeaves O al (t1 :: rest) b with
        | [] => t1 :: t2 :: rest
        | t1' :: rest' => t1' :: t2 :: rest'
      else
        let p := fixSeamPair O al t1 t2
        p.1 :: p.2 :: rest
    else t1 :: fixSeamLeaves O al (t2 :: rest) (b - textBytes t1)

theorem fixSeamLeaves_flatten (O : GraphemeOracle) (al : Bool) (ls : List Text) (b : Nat) :
    (fixSeamLeaves O al ls b).flatten = ls.flatten := by
  match ls with
  | [] => simp [fixSeamLeaves]
  | [t] => simp [fixSeamLeaves]
  | t1 :: t2 :: rest =>
    simp only [fixSeamLeaves]
    by_cases h1 : b = 0
    · rw [if_pos h1]
    rw [if_neg h1]
    by_cases h2 : b < textBytes t1
    · rw [if_pos h2]
    rw [if_neg h2]
    by_cases h3 : b = textBytes t1
    · rw [if_pos h3]
      by_cases h4 : t2.isEmpty = true
      · have he : t2 = [] := List.isEmpty_iff.mp h4
        have ih := fixSeamLeaves_flatten O al (t1 :: rest) b
        rw [if_pos h4]
        cases hm : fixSeamLeaves O al (t1 :: rest) b with
        | nil => simp
        | cons t1' rest' =>
          rw [hm] at ih
          subst he
          simp only [List.flatten_cons, List.nil_append] at ih ⊢
          exact ih
      · rw [if_neg h4]
        have hp := fixSeamPair_append O al t1 t2
        simp only [List.flatten_cons]
        rw [← List.append_assoc, ← List.append_assoc, hp]
    · rw [if_neg h3]
      have ih := fixSeamLeaves_flatten O al (t2 :: rest) (b - textBytes t1)
      simp only [List.flatten_cons] at ih ⊢
      rw [ih]
termination_by ls.length
decreasing_by all_goals simp +arith

theorem fixSeamLeaves_length (O : GraphemeOracle) (al : Bool) (ls : List Text) (b : Nat) :
    (fixSeamLeaves O al ls b).length = ls.length := by
  match ls with
  | [] => simp [fixSeamLeaves]
  | [t] => simp [fixSeamLeaves]
  | t1 :: t2 :: rest =>
    simp only [fixSeamLeaves]
    by_cases h1 : b = 0
    · rw [if_pos h1]
    rw [if_neg h1]
    by_cases h2 : b < textBytes t1
    · rw [if_pos h2]
    rw [if_neg h2]
    by_cases h3 : b = textBytes t1
    · rw [if_pos h3]
      by_cases h4 : t2.isEmpty = true
      · have ih := fixSeamLeaves_length O al (t1 :: rest) b
        rw [if_pos h4]
        cases hm : fixSeamLeaves O al (t1 :: rest) b with
        | nil => simp
        | cons t1' rest' =>
          rw [hm] at ih
          simp only [List.length_cons] at ih ⊢
          omega
      · rw [if_neg h4]
        simp
    · rw [if_neg h3]
      have ih := fixSeamLeaves_length O al (t2 :: rest) (b - textBytes t1)
      simp only [List.length_cons] at ih ⊢
      omega
termination_by ls.length
decreasing_by all_goals simp +arith

mutual

/-- Replace the leaf texts of a node, in order, by texts drawn from the
given list, returning the unconsumed texts.  Used by the seam-repair model
to rewrite the two leaves adjacent to a seam in place, leaving the tree
shape untouched (spec §4.4 step 4 updates only the `TextInfo`s along the
affected spines, which this embedding computes rather than stores). -/
def Node.withLeaves : Node → List Text → Node × List Text
  | .leaf t, [] => (.leaf t, [])
  | .leaf _, u :: rest => (.leaf u, rest)
  | .internal cs, ls =>
    let p := withLeavesAux cs ls
    (.internal p.1, p.2)

/-- Replace the leaf texts of a list of nodes, in order. -/
def withLeavesAux : List Node → List Text → List Node × List Text
  | [], ls => ([], ls)
  | c :: cs, ls =>
    let p := c.withLeaves ls
    let q := withLeavesAux cs p.2
    (p.1 :: q.1, q.2)

end

mutual

theorem withLeaves_leaves (n : Node) (ls : List Text)
    (h : n.leaves.length ≤ ls.length) :
    (n.withLeaves ls).1.leaves = ls.take n.leaves.length ∧
      (n.withLeaves ls).2 = ls.drop n.leaves.length := by
  match n, ls with
  | .leaf t, [] => simp [Node.leaves] at h
  | .leaf t, u :: rest => simp [Node.withLeaves, Node.leaves]
  | .internal cs, ls =>
    have hlen : (leavesAux cs).length ≤ ls.length := by
      simpa [Node.leaves] using h
    have := withLeavesAux_leaves cs ls hlen
    simp only [Node.withLeaves, Node.leaves] at this ⊢
    exact this

theorem withLeavesAux_leaves (cs : List Node) (ls : List Text)
    (h : (leavesAux cs).length ≤ ls.length) :
    leavesAux (withLeavesAux cs ls).1 = ls.take (leavesAux cs).length ∧
      (withLeavesAux cs ls).2 = ls.drop (leavesAux cs).length := by
  match cs with
  | [] => simp [withLeavesAux, leavesAux]
  | c :: cs =>
    simp only [leavesAux, List.length_append] at h
    have h1 : c.leaves.length ≤ ls.length := by omega
    have hc := withLeaves_leaves c ls h1
    have h2 : (leavesAux cs).length ≤ ((c.withLeaves ls).2).length := by
      rw [hc.2, List.length_drop]; omega
    have hcs := withLeavesAux_leaves cs (c.withLeaves ls).2 h2
    simp only [withLeavesAux, leavesAux]
    constructor
    · rw [hc.1, hcs.1, hc.2, List.length_append, List.take_add]
    · rw [hcs.2, hc.2, List.drop_drop, List.length_append]

end

/-- Modelled from the spec (§4.4, grapheme seam repair; `tree.rs` and
`str_utils.rs` are not among the provided sources): locate the two adjacent
non-empty leaves meeting at absolute byte offset `b` and repair that seam,
leaving every other chunk and the tree shape unchanged. -/
def Node.fixGraphemeSeam (n : Node) (O : GraphemeOracle) (b : Nat) (allowLeft : Bool) : Node :=
  (n.withLeaves (fixSeamLeaves O allowLeft n.leaves b)).1

theorem fixGraphemeSeam_text (n : Node) (O : GraphemeOracle) (b : Nat) (al : Bool) :
    (n.fixGraphemeSeam O b al).text = n.text := by
  unfold Node.fixGraphemeSeam
  have hlen : n.leaves.length ≤ (fixSeamLeaves O al n.leaves b).length := by
    rw [fixSeamLeaves_length]
  have h := (withLeaves_leaves n (fixSeamLeaves O al n.leaves b) hlen).1
  rw [Node.text, h, ← fixSeamLeaves_length O al n.leaves b, List.take_length,
    fixSeamLeaves_flatten, Node.text]

/-! ### Builder (bottom-up construction) -/

/-- Modelled from the spec (§4.6, builder; `rope_builder.rs` is not among
the provided sources): cut a text into successive chunks of at most
`MAX_BYTES` bytes each. -/
def chunkText : Text → List Text
  | [] => []
  | c :: rest =>
    let p := takeBytes (c :: rest) MAX_BYTES
    p.1 :: chunkText p.2
termination_by t => t.length
decreasing_by
  exact takeBytes_snd_length_lt c rest MAX_BYTES
    (le_trans (charBytes_le_four c) (by norm_num [MAX_BYTES]))

theorem chunkText_flatten (t : Text) : (chunkText t).flatten = t := by
  match t with
  | [] => simp [chunkText]
  | c :: rest =>
    rw [chunkText]
    simp only [List.flatten_cons]
    rw [chunkText_flatten (takeBytes (c :: rest) MAX_BYTES).2]
    exact takeBytes_append (c :: rest) MAX_BYTES
termination_by t.length
decreasing_by
  exact takeBytes_snd_length_lt c rest MAX_BYTES
    (le_trans (charBytes_le_four c) (by norm_num [MAX_BYTES]))

/-- Modelled from the spec (§4.6, builder): group a level of nodes into
internal parent nodes of at most `MAX_CHILDREN` children each. -/
def groupNodes : List Node → List Node
  | [] => []
  | c :: rest =>
    Node.internal ((c :: rest).take MAX_CHILDREN) :: groupNodes ((c :: rest).drop MAX_CHILDREN)
termination_by ns => ns.length
decreasing_by simp [MAX_CHILDREN]; omega

theorem groupNodes_textAux (ns : List Node) : textAux (groupNodes ns) = textAux ns := by
  match ns with
  | [] => simp [groupNodes]
  | c :: rest =>
    rw [groupNodes, textAux_cons, text_internal,
      groupNodes_textAux ((c :: rest).drop MAX_CHILDREN), ← textAux_append,
      List.take_append_drop]
termination_by ns.length
decreasing_by simp [MAX_CHILDREN]; omega

theorem groupNodes_length_le (ns : List Node) : (groupNodes ns).length ≤ ns.length := by
  match ns with
  | [] => simp [groupNodes]
  | c :: rest =>
    rw [groupNodes]
    have := groupNodes_length_le ((c :: rest).drop MAX_CHILDREN)
    simp only [List.length_cons, List.length_drop, MAX_CHILDREN] at this ⊢
    omega
termination_by ns.length
decreasing_by simp [MAX_CHILDREN]; omega

theorem groupNodes_length_lt (ns : List Node) (h : 2 ≤ ns.length) :
    (groupNodes ns).length < ns.length := by
  match ns with
  | [] => simp at h
  | c :: rest =>
    rw [groupNodes]
    have := groupNodes_length_le ((c :: rest).drop MAX_CHILDREN)
    simp only [List.length_cons, List.length_drop, List.length_cons] at this h ⊢
    simp only [MAX_CHILDREN] at this ⊢
    omega

/-- Modelled from the spec (§4.6, builder): build a tree bottom-up from a
level of nodes, grouping `MAX_CHILDREN` at a time until one node remains.
An empty level yields the empty leaf (the empty rope's root). -/
def buildTree : List Node → Node
  | [] => .leaf []
  | [n] => n
  | n1 :: n2 :: rest => buildTree (groupNodes (n1 :: n2 :: rest))
termination_by ns => ns.length
decreasing_by
  exact groupNodes_length_lt (n1 :: n2 :: rest) (by simp)

theorem buildTree_text (ns : List Node) : (buildTree ns).text = textAux ns := by
  match ns with
  | [] => simp [buildTree, text_leaf, textAux, leavesAux]
  | [n] => simp [buildTree, textAux_cons, textAux_nil]
  | n1 :: n2 :: rest =>
    rw [buildTree, buildTree_text (groupNodes (n1 :: n2 :: rest)), groupNodes_textAux]
termination_by ns.length
decreasing_by
  exact groupNodes_length_lt (n1 :: n2 :: rest) (by simp)

/-! ### The Rope façade (embedded from src/src/rope.rs) -/

/-- A rope: owns a root node (src/src/rope.rs, `pub struct Rope`).  The
`Arc` handle is pure data sharing; in this value-level embedding a rope is
its root. -/
structure Rope where
  root : Node

/-- Creates an empty rope (src/src/rope.rs, `Rope::new`): a single empty
leaf. -/
def Rope.new : Rope := ⟨.leaf []⟩

/-- Total number of chars (src/src/rope.rs, `Rope::len_chars`). -/
def Rope.lenChars (r : Rope) : Nat := r.root.charCount

/-- Total number of bytes (src/src/rope.rs, `Rope::len_bytes`). -/
def Rope.lenBytes (r : Rope) : Nat := r.root.byteCount

/-- The entire text of the rope (src/src/rope.rs, `Rope::to_string`):
concatenation of the chunks in in-order traversal. -/
def Rope.toText (r : Rope) : Text := r.root.text

/-- Creates a rope from a string slice (src/src/rope.rs, `Rope::from_str`):
feeds the text to the builder and finishes it.  The builder itself is
modelled from the spec (§4.6). -/
def Rope.fromStr (t : Text) : Rope := ⟨buildTree ((chunkText t).map .leaf)⟩

/-- Iteratively replace the root with its only child (src/src/rope.rs,
`Rope::pull_up_singular_nodes`). -/
def pullUpNode : Node → Node
  | .internal [c] => pullUpNode c
  | .leaf t => .leaf t
  | .internal [] => .internal []
  | .internal (c1 :: c2 :: rest) => .internal (c1 :: c2 :: rest)

theorem pullUpNode_text (n : Node) : (pullUpNode n).text = n.text := by
  match n with
  | .internal [c] =>
    rw [pullUpNode, pullUpNode_text c, text_internal, textAux_cons, textAux_nil,
      List.append_nil]
  | .leaf t => rw [pullUpNode]
  | .internal [] => rw [pullUpNode]
  | .internal (c1 :: c2 :: rest) => rw [pullUpNode]

/-- Applies `pull_up_singular_nodes` to the rope's root (src/src/rope.rs). -/
def Rope.pullUpSingularNodes (r : Rope) : Rope := ⟨pullUpNode r.root⟩

/-- Splits the rope at a char index, leaving the left part and returning
the right part (src/src/rope.rs, `Rope::split_off`): index 0 swaps in an
empty rope and returns the original, index `len_chars` returns an empty
rope; otherwise split the root, zip-fix the right spine of the left tree
and the left spine of the right tree, and pull up singular roots on both. -/
def Rope.splitOff (r : Rope) (i : Nat) : Rope × Rope :=
  if i = 0 then (Rope.new, r)
  else if i = r.lenChars then (r, Rope.new)
  else
    let p := r.root.splitRec i
    let leftRope := Rope.pullUpSingularNodes ⟨p.1.zipFixRight⟩
    let rightRope : Rope := ⟨pullUpNode p.2.zipFixLeft⟩
    (leftRope, rightRope)

/-- Appends another rope to this one, consuming it (src/src/rope.rs,
`Rope::append`): an empty side is handled by a swap or by doing nothing;
otherwise the shallower tree is grafted onto the deeper one at the depth
difference, a residual bubbling out of the root becomes a sibling under a
new root, and the join seam gets a grapheme fix. -/
def Rope.append (O : GraphemeOracle) (r : Rope) (other : Rope) : Rope :=
  if r.lenChars = 0 then other
  else if other.lenChars > 0 then
    let seamByte := r.root.byteCount
    let lDepth := r.root.depth
    let rDepth := other.root.depth
    let joined : Node :=
      if lDepth > rDepth then
        let p := r.root.appendAtDepth other.root (lDepth - rDepth)
        match p.2 with
        | some extra => Node.internal [p.1, extra]
        | none => p.1
      else
        let p := other.root.prependAtDepth r.root (rDepth - lDepth)
        match p.2 with
        | some extra => Node.internal [extra, p.1]
        | none => p.1
    ⟨joined.fixGraphemeSeam O seamByte true⟩
  else r

/-- Inserts text at a char index, bounds already checked (src/src/rope.rs,
`Rope::insert`, the body after the assert).  Three strategies: a small
text is inserted by the recursive node insert (handling a root split and
the seam fix); a small single-leaf host is rebuilt around the new text by
two recursive façade inserts; otherwise the rope is split at the index and
the pieces are appended. -/
theorem leafText_eq_text (n : Node) (h : n.isLeaf = true) : n.leafText = n.text := by
  match n with
  | .leaf t => rw [Node.leafText, text_leaf]
  | .internal cs => simp [Node.isLeaf] at h

theorem textBytes_drop_le (t : Text) (k : Nat) :
    textBytes (t.drop k) ≤ textBytes t := by
  conv_rhs => rw [← List.take_append_drop k t]
  rw [textBytes_append]; omega

def Rope.insertOk (O : GraphemeOracle) (r : Rope) (i : Nat) (s : Text) : Rope :=
  if h1 : textBytes s ≤ MAX_BYTES then
    let p := r.root.insertRec i s
    let root2 : Node :=
      match p.2.1 with
      | some rnode => Node.internal [p.1, rnode]
      | none => p.1
    let root3 : Node :=
      match p.2.2 with
      | some b => root2.fixGraphemeSeam O b true
      | none => root2
    ⟨root3⟩
  else if h2 : r.root.isLeaf ∧ r.root.byteCount ≤ MAX_BYTES then
    let origText := r.root.leafText
    let n1 := (Rope.fromStr s).insertOk O 0 (origText.take i)
    n1.insertOk O n1.lenChars (origText.drop i)
  else
    let textRope := Rope.fromStr s
    let p := r.splitOff i
    (p.1.append O textRope).append O p.2
termination_by textBytes s
decreasing_by
  · have hb : textBytes (r.root.leafText.take i) ≤ textBytes r.root.leafText :=
      textBytes_take_le _ _
    have he : textBytes r.root.leafText = r.root.byteCount := by
      rw [leafText_eq_text r.root h2.1, Node.byteCount]
    omega
  · have hb : textBytes (r.root.leafText.drop i) ≤ textBytes r.root.leafText :=
      textBytes_drop_le _ _
    have he : textBytes r.root.leafText = r.root.byteCount := by
      rw [leafText_eq_text r.root h2.1, Node.byteCount]
    omega

/-- Removes the char range `start..stop`, bounds already checked
(src/src/rope.rs, `Rope::remove`): recursive node removal, a zip-fix pass
when needed, a grapheme seam fix when a cut seam is reported, then pulling
up singular root nodes. -/
def Rope.removeOk (O : GraphemeOracle) (r : Rope) (start stop : Nat) : Rope :=
  let p := r.root.removeRec start stop
  let root2 : Node := if p.2.1 then p.1.zipFix start else p.1
  let root3 : Node :=
    match p.2.2 with
    | some b => root2.fixGraphemeSeam O b false
    | none => root2
  (Rope.mk root3).pullUpSingularNodes

/-- The caller-visible failure of an edit operation given an out-of-bounds
index (spec §7, OutOfBounds; surfaced as a panic in the Rust source). -/
inductive RopeError where
  | outOfBounds
deriving Repr, DecidableEq

/-- Inserts `s` at char index `i` (src/src/rope.rs, `Rope::insert`): the
bounds are validated first (the `assert!` at the top of `Rope::insert`);
on failure the rope is untouched. -/
def Rope.insert (O : GraphemeOracle) (r : Rope) (i : Nat) (s : Text) :
    Except RopeError Rope :=
  if i ≤ r.lenChars then .ok (r.insertOk O i s) else .error .outOfBounds

/-- Removes the char range `start..stop` (src/src/rope.rs, `Rope::remove`).
The bounds check `start ≤ stop ≤ len_chars` is modelled from the spec
(§4.5 table and §7: bounds are validated before any mutation); it lives in
`tree.rs`, which is not among the provided sources. -/
def Rope.remove (O : GraphemeOracle) (r : Rope) (start stop : Nat) :
    Except RopeError Rope :=
  if start ≤ stop ∧ stop ≤ r.lenChars then .ok (r.removeOk O start stop)
  else .error .outOfBounds

/-- A concrete grapheme oracle used to evaluate the model on closed inputs:
it treats every position as a boundary except between a carriage return and
a following line feed (the CRLF cluster, the seam case exercised by the
source's `remove_02` test). -/
def crlfOracle : GraphemeOracle where
  isBoundary l r :=
    !(l.getLast? = some (Char.ofNat 13) ∧ r.head? = some (Char.ofNat 10) : Bool)
  prevBoundary t i :=
    if i ≥ 1 ∧ t.get? (i - 1) = some (Char.ofNat 13) ∧ t.get? i = some (Char.ofNat 10)
    then i - 1 else i
  nextBoundary t i :=
    if i ≥ 1 ∧ t.get? (i - 1) = some (Char.ofNat 13) ∧ t.get? i = some (Char.ofNat 10)
    then i + 1 else i

/-! ### Text-level effect of the node operations -/

/-- Text of an optional node (the residual of an insert or graft). -/
def optText : Option Node → Text
  | some n => n.text
  | none => []

theorem splice_append_left (a b s : Text) (i : Nat) (h : i ≤ a.length) :
    splice (a ++ b) i s = splice a i s ++ b := by
  unfold splice
  rw [List.take_append_eq_append_take, List.drop_append_eq_append_drop]
  have h1 : i - a.length = 0 := by omega
  simp [h1]

theorem splice_append_right (a b s : Text) (i : Nat) (h : a.length ≤ i) :
    splice (a ++ b) i s = a ++ splice b (i - a.length) s := by
  unfold splice
  rw [List.take_append_eq_append_take, List.drop_append_eq_append_drop]
  have h1 : a.take i = a := List.take_of_length_le h
  have h2 : a.drop i = [] := List.drop_eq_nil_of_le h
  simp [h1, h2]

theorem leafInsert_text (t : Text) (i : Nat) (s : Text) :
    (leafInsert t i s).1.text ++ optText (leafInsert t i s).2.1 = splice t i s := by
  unfold leafInsert
  by_cases h : textBytes (splice t i s) ≤ MAX_BYTES
  · simp only [h, if_pos]
    rw [text_leaf, optText, List.append_nil]
  · simp only [h, if_neg, if_false]
    rw [text_leaf, optText, text_leaf]
    exact takeBytes_append (splice t i s) MAX_BYTES

mutual

theorem insertRec_text (n : Node) (i : Nat) (s : Text) :
    (n.insertRec i s).1.text ++ optText (n.insertRec i s).2.1 = splice n.text i s := by
  match n with
  | .leaf t =>
    rw [Node.insertRec, text_leaf]
    exact leafInsert_text t i s
  | .internal [] =>
    rw [Node.insertRec, text_internal, textAux_nil]
    exact leafInsert_text [] i s
  | .internal (c :: rest) =>
    rw [Node.insertRec]
    have haux := insertChildren_text (c :: rest) i s (by simp)
    by_cases h : (insertChildren (c :: rest) i s).1.length ≤ MAX_CHILDREN
    · simp only [h, if_pos]
      rw [text_internal, optText, List.append_nil, haux, text_internal]
    · simp only [h, if_neg, if_false]
      rw [text_internal, optText, text_internal, ← textAux_append,
        List.take_append_drop, haux, text_internal]

theorem insertChildren_text (cs : List Node) (i : Nat) (s : Text) (hne : cs ≠ []) :
    textAux (insertChildren cs i s).1 = splice (textAux cs) i s := by
  match cs with
  | [] => exact absurd rfl hne
  | c :: rest =>
    rw [insertChildren]
    by_cases hcond : i < c.charCount ∨ rest.isEmpty = true
    · simp only [hcond, if_pos]
      have hc := insertRec_text c i s
      rcases hr : (c.insertRec i s).2.1 with _ | rnode
      · rw [hr, optText, List.append_nil] at hc
        simp only [hr]
        rw [textAux_cons, hc, textAux_cons]
        rcases hcond with hlt | hemp
        · rw [splice_append_left c.text (textAux rest) s i (le_of_lt hlt)]
        · have : rest = [] := List.isEmpty_iff.mp hemp
          subst this
          rw [textAux_nil, List.append_nil, List.append_nil]
      · rw [hr, optText] at hc
        simp only [hr]
        rw [textAux_cons, textAux_cons, ← List.append_assoc, hc, textAux_cons]
        rcases hcond with hlt | hemp
        · rw [splice_append_left c.text (textAux rest) s i (le_of_lt hlt)]
        · have : rest = [] := List.isEmpty_iff.mp hemp
          subst this
          rw [textAux_nil, List.append_nil, List.append_nil]
    · simp only [hcond, if_neg, if_false]
      push_neg at hcond
      have hge : c.text.length ≤ i := by
        simpa [Node.charCount] using hcond.1
      have hrne : rest ≠ [] := by
        intro hx
        subst hx
        simp at hcond
      rw [textAux_cons, insertChildren_text rest (i - c.charCount) s hrne, textAux_cons,
        splice_append_right c.text (textAux rest) s i hge]
      simp [Node.charCount]

end

mutual

theorem splitRec_text (n : Node) (i : Nat) :
    (n.splitRec i).1.text = n.text.take i ∧ (n.splitRec i).2.text = n.text.drop i := by
  match n with
  | .leaf t =>
    rw [Node.splitRec]
    constructor <;> rw [text_leaf, text_leaf]
  | .internal cs =>
    rw [Node.splitRec]
    have h := splitChildren_text cs i
    constructor
    · rw [text_internal, h.1, text_internal]
    · rw [text_internal, h.2, text_internal]

theorem splitChildren_text (cs : List Node) (i : Nat) :
    textAux (splitChildren cs i).1 = (textAux cs).take i ∧
      textAux (splitChildren cs i).2 = (textAux cs).drop i := by
  match cs with
  | [] => simp [splitChildren, textAux_nil]
  | c :: rest =>
    rw [splitChildren]
    by_cases h1 : i < c.charCount
    · simp only [h1, if_pos]
      have hc := splitRec_text c i
      have hlen : i ≤ c.text.length := by
        simpa [Node.charCount] using le_of_lt h1
      constructor
      · rw [textAux_cons, textAux_nil, List.append_nil, hc.1, textAux_cons,
          List.take_append_eq_append_take]
        have : i - c.text.length = 0 := by omega
        simp [this]
      · rw [textAux_cons, hc.2, textAux_cons, List.drop_append_eq_append_drop]
        have : i - c.text.length = 0 := by omega
        simp [this]
    · rw [if_neg h1]
      by_cases h2 : i = c.charCount
      · simp only [h2, if_pos]
        have hlen : c.charCount = c.text.length := rfl
        constructor
        · rw [textAux_cons, textAux_nil, List.append_nil, textAux_cons,
            List.take_append_eq_append_take]
          have : c.charCount - c.text.length = 0 := by omega
          simp [this, hlen]
        · rw [textAux_cons, List.drop_append_eq_append_drop]
          have : c.charCount - c.text.length = 0 := by omega
          simp [this, hlen]
      · rw [if_neg h2]
        have hge : c.text.length ≤ i := by
          have : c.charCount ≤ i := by omega
          simpa [Node.charCount] using this
        have ih := splitChildren_text rest (i - c.charCount)
        constructor
        · rw [textAux_cons, ih.1, textAux_cons, List.take_append_eq_append_take,
            List.take_of_length_le hge]
          simp [Node.charCount]
        · rw [ih.2, textAux_cons, List.drop_append_eq_append_drop,
            List.drop_eq_nil_of_le hge, List.nil_append]
          simp [Node.charCount]

end

/-! ### Zip-fix preserves the text -/

theorem mergeNodes_textAux (a b : Node) :
    textAux (mergeNodes a b) = a.text ++ b.text := by
  match a, b with
  | .leaf t1, .leaf t2 =>
    rw [mergeNodes]
    by_cases h : textBytes (t1 ++ t2) ≤ MAX_BYTES
    · simp only [h, if_pos]
      rw [textAux_cons, textAux_nil, List.append_nil, text_leaf, text_leaf, text_leaf]
    · simp only [h, if_neg, if_false]
      rw [textAux_cons, textAux_cons, textAux_nil, List.append_nil,
        text_leaf, text_leaf, text_leaf, text_leaf,
        takeBytes_append (t1 ++ t2) ((textBytes (t1 ++ t2) + 1) / 2)]
  | .internal cs1, .internal cs2 =>
    rw [mergeNodes]
    by_cases h : (cs1 ++ cs2).length ≤ MAX_CHILDREN
    · simp only [h, if_pos]
      rw [textAux_cons, textAux_nil, List.append_nil, text_internal, textAux_append,
        text_internal, text_internal]
    · simp only [h, if_neg, if_false]
      rw [textAux_cons, textAux_cons, textAux_nil, List.append_nil,
        text_internal, text_internal, text_internal, text_internal,
        ← textAux_append, List.take_append_drop, textAux_append]
  | .leaf t1, .internal cs2 =>
    rw [mergeNodes, textAux_cons, textAux_cons, textAux_nil, List.append_nil]
  | .internal cs1, .leaf t2 =>
    rw [mergeNodes, textAux_cons, textAux_cons, textAux_nil, List.append_nil]

theorem fixAt_textAux (cs : List Node) (j : Nat) :
    textAux (fixAt cs j) = textAux cs := by
  match cs, j with
  | [], _ => rw [fixAt]
  | [c], _ => rw [fixAt]
  | c1 :: c2 :: rest, 0 =>
    rw [fixAt]
    by_cases h : c1.undersized = true
    · simp only [h, if_pos]
      rw [textAux_append, mergeNodes_textAux, textAux_cons, textAux_cons,
        List.append_assoc]
    · rw [if_neg h]
  | [c1, c2], j + 1 =>
    rw [fixAt]
    by_cases h : c2.undersized = true
    · simp only [h, if_pos]
      rw [mergeNodes_textAux, textAux_cons, textAux_cons, textAux_nil, List.append_nil]
    · rw [if_neg h]
  | c1 :: c2 :: c3 :: rest, j + 1 =>
    rw [fixAt, textAux_cons, fixAt_textAux (c2 :: c3 :: rest) j]
    simp [textAux_cons]

mutual

theorem zipFix_text (n : Node) (i : Nat) : (n.zipFix i).text = n.text := by
  match n with
  | .leaf t => rw [Node.zipFix]
  | .internal cs =>
    rw [Node.zipFix, text_internal, text_internal]
    exact zipFixChildren_text cs i

theorem zipFixChildren_text (cs : List Node) (i : Nat) :
    textAux (zipFixChildren cs i) = textAux cs := by
  match cs with
  | [] => rw [zipFixChildren]
  | c :: rest =>
    rw [zipFixChildren]
    by_cases h : i < c.charCount ∨ rest.isEmpty = true
    · simp only [h, if_pos]
      rw [fixAt_textAux, textAux_cons, zipFix_text c i, textAux_cons]
    · simp only [h, if_neg, if_false]
      rw [textAux_cons, zipFixChildren_text rest (i - c.charCount), textAux_cons]

end

mutual

theorem zipFixLeft_text (n : Node) : n.zipFixLeft.text = n.text := by
  match n with
  | .leaf t => rw [Node.zipFixLeft]
  | .internal cs =>
    rw [Node.zipFixLeft, text_internal, text_internal]
    exact zflChildren_text cs

theorem zflChildren_text (cs : List Node) : textAux (zflChildren cs) = textAux cs := by
  match cs with
  | [] => rw [zflChildren]
  | c :: rest =>
    rw [zflChildren, fixAt_textAux, textAux_cons, zipFixLeft_text c, textAux_cons]

end

theorem textAux_toList (o : Option Node) : textAux o.toList = optText o := by
  cases o with
  | none => rw [Option.toList_none, textAux_nil, optText]
  | some n => rw [Option.toList_some, textAux_cons, textAux_nil, List.append_nil, optText]

theorem appendAtDepth_text (a b : Node) (d : Nat) :
    (a.appendAtDepth b d).1.text ++ optText (a.appendAtDepth b d).2 = a.text ++ b.text := by
  match a, b, d with
  | .internal cs1, .internal cs2, 0 =>
    rw [Node.appendAtDepth]
    by_cases h : (cs1 ++ cs2).length ≤ MAX_CHILDREN
    · simp only [h, if_pos]
      rw [optText, List.append_nil, text_internal, textAux_append, text_internal,
        text_internal]
    · simp only [h, if_neg, if_false]
      rw [optText, text_internal, text_internal, ← textAux_append,
        List.take_append_drop, textAux_append, text_internal, text_internal]
  | .leaf t1, o, 0 => rw [Node.appendAtDepth, optText]
  | .internal cs1, .leaf t2, 0 => rw [Node.appendAtDepth, optText]
  | .internal cs, o, d + 1 =>
    rw [Node.appendAtDepth]
    cases hl : cs.getLast? with
    | none =>
      simp only
      rw [optText]
    | some lastC =>
      simp only
      have hcs : cs.dropLast ++ [lastC] = cs :=
        List.dropLast_append_getLast? lastC (Option.mem_def.mpr hl)
      have ih := appendAtDepth_text lastC o d
      by_cases h : (cs.dropLast ++ (lastC.appendAtDepth o d).1 ::
          (lastC.appendAtDepth o d).2.toList).length ≤ MAX_CHILDREN
      · simp only [h, if_pos]
        rw [optText, List.append_nil, text_internal, textAux_append, textAux_cons,
          textAux_toList, ih]
        conv_rhs => rw [text_internal, ← hcs]
        rw [textAux_append, textAux_cons, textAux_nil, List.append_nil,
          List.append_assoc]
      · simp only [h, if_neg, if_false]
        rw [optText, text_internal, text_internal, ← textAux_append,
          List.take_append_drop, textAux_append, textAux_cons, textAux_toList, ih]
        conv_rhs => rw [text_internal, ← hcs]
        rw [textAux_append, textAux_cons, textAux_nil, List.append_nil,
          List.append_assoc]
  | .leaf t, o, _ + 1 => rw [Node.appendAtDepth, optText]

theorem prependAtDepth_text (a b : Node) (d : Nat) :
    optText (a.prependAtDepth b d).2 ++ (a.prependAtDepth b d).1.text = b.text ++ a.text := by
  match a, b, d with
  | .internal cs1, .internal cs2, 0 =>
    rw [Node.prependAtDepth]
    by_cases h : (cs2 ++ cs1).length ≤ MAX_CHILDREN
    · simp only [h, if_pos]
      rw [optText, List.nil_append, text_internal, textAux_append, text_internal,
        text_internal]
    · simp only [h, if_neg, if_false]
      rw [optText, text_internal, text_internal, ← textAux_append,
        List.take_append_drop, textAux_append, text_internal, text_internal]
  | .leaf t1, o, 0 => rw [Node.prependAtDepth, optText]
  | .internal cs1, .leaf t2, 0 => rw [Node.prependAtDepth, optText]
  | .internal (c :: rest), o, d + 1 =>
    rw [Node.prependAtDepth]
    have ih := prependAtDepth_text c o d
    by_cases h : ((c.prependAtDepth o d).2.toList ++ (c.prependAtDepth o d).1 ::
        rest).length ≤ MAX_CHILDREN
    · simp only [h, if_pos]
      rw [optText, List.nil_append, text_internal, textAux_append, textAux_cons,
        textAux_toList, ← List.append_assoc, ih, text_internal, textAux_cons,
        List.append_assoc]
    · simp only [h, if_neg, if_false]
      rw [optText, text_internal, text_internal, ← textAux_append,
        List.take_append_drop, textAux_append, textAux_cons, textAux_toList,
        ← List.append_assoc, ih, text_internal, textAux_cons, List.append_assoc]
  | .internal [], o, _ + 1 => rw [Node.prependAtDepth, optText]
  | .leaf t, o, _ + 1 => rw [Node.prependAtDepth, optText]

mutual

theorem zipFixRight_text (n : Node) : n.zipFixRight.text = n.text := by
  match n with
  | .leaf t => rw [Node.zipFixRight]
  | .internal cs =>
    rw [Node.zipFixRight, text_internal, text_internal]
    exact zfrChildren_text cs

theorem zfrChildren_text (cs : List Node) : textAux (zfrChildren cs) = textAux cs := by
  match cs with
  | [] => rw [zfrChildren]
  | [c] =>
    rw [zfrChildren, fixAt_textAux, textAux_cons, zipFixRight_text c, textAux_cons]
  | [c1, c2] =>
    rw [zfrChildren, fixAt_textAux, textAux_cons, textAux_cons,
      zipFixRight_text c2, textAux_cons, textAux_cons]
  | c1 :: c2 :: c3 :: rest =>
    rw [zfrChildren, textAux_cons, zfrChildren_text (c2 :: c3 :: rest)]
    simp [textAux_cons]

end

/-! ### Façade-level text theorems -/

theorem textAux_map_leaf (ls : List Text) :
    textAux (ls.map Node.leaf) = ls.flatten := by
  induction ls with
  | nil => rw [List.map_nil, textAux_nil, List.flatten_nil]
  | cons t rest ih =>
    rw [List.map_cons, textAux_cons, text_leaf, List.flatten_cons, ih]

theorem fromStr_text (t : Text) : (Rope.fromStr t).toText = t := by
  rw [Rope.fromStr, Rope.toText, buildTree_text, textAux_map_leaf, chunkText_flatten]

theorem splice_zero (t s : Text) : splice t 0 s = s ++ t := by
  simp [splice]

theorem splice_at_length (t s : Text) : splice t t.length s = t ++ s := by
  simp [splice]

theorem lenChars_eq_length (r : Rope) : r.lenChars = r.toText.length := rfl

theorem toText_new : Rope.new.toText = [] := by
  rw [Rope.new, Rope.toText, text_leaf]

theorem splitOff_text (r : Rope) (i : Nat) :
    (r.splitOff i).1.toText = r.toText.take i ∧
      (r.splitOff i).2.toText = r.toText.drop i := by
  rw [Rope.splitOff]
  by_cases h0 : i = 0
  · simp only [h0, if_pos]
    constructor
    · rw [toText_new, List.take_zero]
    · rw [List.drop_zero]
  rw [if_neg h0]
  by_cases h1 : i = r.lenChars
  · simp only [h1, if_pos]
    constructor
    · rw [lenChars_eq_length, List.take_length]
    · rw [toText_new, lenChars_eq_length, List.drop_length]
  rw [if_neg h1]
  have hs := splitRec_text r.root i
  constructor
  · show (Rope.pullUpSingularNodes ⟨(r.root.splitRec i).1.zipFixRight⟩).toText = _
    rw [Rope.pullUpSingularNodes, Rope.toText]
    show (pullUpNode (r.root.splitRec i).1.zipFixRight).text = _
    rw [pullUpNode_text, zipFixRight_text, hs.1, Rope.toText]
  · show (Rope.mk (pullUpNode (r.root.splitRec i).2.zipFixLeft)).toText = _
    rw [Rope.toText]
    show (pullUpNode (r.root.splitRec i).2.zipFixLeft).text = _
    rw [pullUpNode_text, zipFixLeft_text, hs.2, Rope.toText]

theorem toText_eq_nil_of_lenChars_zero (r : Rope) (h : r.lenChars = 0) :
    r.toText = [] := by
  rw [lenChars_eq_length] at h
  exact List.length_eq_zero.mp h

theorem append_text (O : GraphemeOracle) (r other : Rope) :
    (r.append O other).toText = r.toText ++ other.toText := by
  rw [Rope.append]
  by_cases h0 : r.lenChars = 0
  · simp only [h0, if_pos]
    rw [toText_eq_nil_of_lenChars_zero r h0, List.nil_append]
  rw [if_neg h0]
  by_cases h1 : other.lenChars > 0
  · simp only [h1, if_pos]
    rw [Rope.toText]
    show (Node.fixGraphemeSeam _ O _ true).text = _
    rw [fixGraphemeSeam_text]
    by_cases h2 : r.root.depth > other.root.depth
    · simp only [h2, if_pos]
      have ha := appendAtDepth_text r.root other.root (r.root.depth - other.root.depth)
      rcases he : (r.root.appendAtDepth other.root (r.root.depth - other.root.depth)).2
        with _ | extra
      · rw [he, optText, List.append_nil] at ha
        simp only [he]
        rw [Rope.toText, Rope.toText]
        exact ha
      · rw [he, optText] at ha
        simp only [he]
        rw [text_internal, textAux_cons, textAux_cons, textAux_nil, List.append_nil,
          Rope.toText, Rope.toText]
        exact ha
    · simp only [h2, if_neg, if_false]
      have ha := prependAtDepth_text other.root r.root (other.root.depth - r.root.depth)
      rcases he : (other.root.prependAtDepth r.root (other.root.depth - r.root.depth)).2
        with _ | extra
      · rw [he, optText, List.nil_append] at ha
        simp only [he]
        rw [Rope.toText, Rope.toText]
        exact ha
      · rw [he, optText] at ha
        simp only [he]
        rw [text_internal, textAux_cons, textAux_cons, textAux_nil, List.append_nil,
          Rope.toText, Rope.toText]
        exact ha
  · rw [if_neg h1]
    have : other.lenChars = 0 := by omega
    rw [toText_eq_nil_of_lenChars_zero other this, List.append_nil]

theorem insertOk_text (O : GraphemeOracle) (r : Rope) (i : Nat) (s : Text) :
    (r.insertOk O i s).toText = splice r.toText i s := by
  rw [Rope.insertOk]
  by_cases h1 : textBytes s ≤ MAX_BYTES
  · rw [dif_pos h1]
    have hi := insertRec_text r.root i s
    rcases hres : (r.root.insertRec i s).2.1 with _ | rnode <;>
      rcases hseam : (r.root.insertRec i s).2.2 with _ | b
    · rw [hres, optText, List.append_nil] at hi
      simp only [hres, hseam, Rope.toText]
      exact hi
    · rw [hres, optText, List.append_nil] at hi
      simp only [hres, hseam, Rope.toText]
      rw [fixGraphemeSeam_text]
      exact hi
    · rw [hres, optText] at hi
      simp only [hres, hseam, Rope.toText]
      rw [text_internal, textAux_cons, textAux_cons, textAux_nil, List.append_nil]
      exact hi
    · rw [hres, optText] at hi
      simp only [hres, hseam, Rope.toText]
      rw [fixGraphemeSeam_text, text_internal, textAux_cons, textAux_cons,
        textAux_nil, List.append_nil]
      exact hi
  · rw [dif_neg h1]
    by_cases h2 : r.root.isLeaf = true ∧ r.root.byteCount ≤ MAX_BYTES
    · rw [dif_pos h2]
      have ih1 := insertOk_text O (Rope.fromStr s) 0 (r.root.leafText.take i)
      rw [fromStr_text, splice_zero] at ih1
      have ih2 := insertOk_text O ((Rope.fromStr s).insertOk O 0 (r.root.leafText.take i))
        (((Rope.fromStr s).insertOk O 0 (r.root.leafText.take i)).lenChars)
        (r.root.leafText.drop i)
      conv at ih2 => rhs; rw [lenChars_eq_length, splice_at_length, ih1]
      simp only
      rw [ih2]
      have ht : r.toText = r.root.leafText := by
        rw [Rope.toText, leafText_eq_text r.root h2.1]
      rw [ht, splice, List.append_assoc]
    · rw [dif_neg h2]
      simp only
      rw [append_text, append_text, fromStr_text, (splitOff_text r i).1,
        (splitOff_text r i).2, splice, List.append_assoc]
termination_by textBytes s
decreasing_by
  · have hb : textBytes (r.root.leafText.take i) ≤ textBytes r.root.leafText :=
      textBytes_take_le _ _
    have he : textBytes r.root.leafText = r.root.byteCount := by
      rw [leafText_eq_text r.root h2.1, Node.byteCount]
    omega
  · have hb : textBytes (r.root.leafText.drop i) ≤ textBytes r.root.leafText :=
      textBytes_drop_le _ _
    have he : textBytes r.root.leafText = r.root.byteCount := by
      rw [leafText_eq_text r.root h2.1, Node.byteCount]
    omega

/-! ### Byte-level model for from_reader (src/src/rope.rs lines 91-156)

The loop in `Rope::from_reader` is embedded from the source.  The pieces it
consumes that are not under src/ are modelled: `std::str::from_utf8` (with
its `valid_up_to` semantics) is modelled as a greedy UTF-8 decoder that
consumes the longest valid prefix, and the builder again by `Rope.fromStr`.
Bytes are `Nat` values; a reader is a list of read events. -/

/-- The UTF-8 encoding of a scalar value (the encoding Rust's `str`
guarantees for the data handed to the builder). -/
def encodeChar (c : Char) : List Nat :=
  let n := c.toNat
  if n < 0x80 then [n]
  else if n < 0x800 then [0xC0 + n / 64, 0x80 + n % 64]
  else if n < 0x10000 then [0xE0 + n / 4096, 0x80 + n / 64 % 64, 0x80 + n % 64]
  else [0xF0 + n / 262144, 0x80 + n / 4096 % 64, 0x80 + n / 64 % 64, 0x80 + n % 64]

/-- The UTF-8 encoding of a text. -/
def encodeUtf8 (t : Text) : List Nat := t.flatMap encodeChar

/-- Whether a byte is a UTF-8 continuation byte. -/
def isCont (b : Nat) : Bool := decide (0x80 ≤ b ∧ b < 0xC0)

/-- Decode one scalar from the front of a byte list, rejecting exactly what
Rust's UTF-8 validator rejects: stray continuation bytes, overlong forms
(C0/C1, E0 80-9F, F0 80-8F), surrogates (ED A0-BF), values past U+10FFFF
(F5-FF) and truncated sequences. -/
def decodeOne : List Nat → Option (Char × List Nat)
  | [] => none
  | b0 :: rest =>
    if b0 < 0x80 then some (Char.ofNat b0, rest)
    else if b0 < 0xC2 then none
    else if b0 < 0xE0 then
      match rest with
      | b1 :: r =>
        if isCont b1 then some (Char.ofNat ((b0 - 0xC0) * 64 + (b1 - 0x80)), r)
        else none
      | [] => none
    else if b0 < 0xF0 then
      match rest with
      | b1 :: b2 :: r =>
        if isCont b1 ∧ isCont b2 ∧ (b0 = 0xE0 → 0xA0 ≤ b1) ∧ (b0 = 0xED → b1 < 0xA0) then
          some (Char.ofNat ((b0 - 0xE0) * 4096 + (b1 - 0x80) * 64 + (b2 - 0x80)), r)
        else none
      | _ => none
    else if b0 < 0xF5 then
      match rest with
      | b1 :: b2 :: b3 :: r =>
        if isCont b1 ∧ isCont b2 ∧ isCont b3 ∧ (b0 = 0xF0 → 0x90 ≤ b1) ∧
            (b0 = 0xF4 → b1 < 0x90) then
          some (Char.ofNat
            ((b0 - 0xF0) * 262144 + (b1 - 0x80) * 4096 + (b2 - 0x80) * 64 + (b3 - 0x80)), r)
        else none
      | _ => none
    else none

theorem toNat_ofNat_valid (n : Nat) (h : n.isValidChar) : (Char.ofNat n).toNat = n := by
  rw [Char.ofNat, dif_pos h]
  rfl

theorem encodeChar_toNat_valid (n : Nat) (h : n.isValidChar) :
    encodeChar (Char.ofNat n) =
      (if n < 0x80 then [n]
       else if n < 0x800 then [0xC0 + n / 64, 0x80 + n % 64]
       else if n < 0x10000 then [0xE0 + n / 4096, 0x80 + n / 64 % 64, 0x80 + n % 64]
       else [0xF0 + n / 262144, 0x80 + n / 4096 % 64, 0x80 + n / 64 % 64, 0x80 + n % 64]) := by
  rw [encodeChar]
  rw [toNat_ofNat_valid n h]

theorem decodeOne_sound (bs : List Nat) (c : Char) (r : List Nat)
    (h : decodeOne bs = some (c, r)) : bs = encodeChar c ++ r := by
  match bs with
  | [] => simp [decodeOne] at h
  | b0 :: rest =>
    simp only [decodeOne] at h
    split at h
    · rename_i hlt
      simp only [Option.some.injEq, Prod.mk.injEq] at h
      obtain ⟨hc, hr⟩ := h
      subst hc hr
      have hv : (b0 : Nat).isValidChar := Or.inl (by omega)
      rw [encodeChar_toNat_valid b0 hv, if_pos hlt]
      rfl
    · split at h
      · simp at h
      · split at h
        · split at h
          · split at h
            · rename_i hlt rest0 b1 r1 hcont
              simp only [isCont, decide_eq_true_eq] at hcont
              simp only [Option.some.injEq, Prod.mk.injEq] at h
              obtain ⟨hc, hr⟩ := h
              subst hc hr
              have hv : ((b0 - 0xC0) * 64 + (b1 - 0x80) : Nat).isValidChar :=
                Or.inl (by omega)
              rw [encodeChar_toNat_valid _ hv, if_neg (by omega), if_pos (by omega)]
              have e1 : 0xC0 + ((b0 - 0xC0) * 64 + (b1 - 0x80)) / 64 = b0 := by omega
              have e2 : 0x80 + ((b0 - 0xC0) * 64 + (b1 - 0x80)) % 64 = b1 := by omega
              rw [e1, e2]
              rfl
            · simp at h
          · simp at h
        · split at h
          · split at h
            · split at h
              · rename_i hlt rest0 b1 b2 r2 hcond
                obtain ⟨hcb1, hcb2, hov, hsur⟩ := hcond
                simp only [isCont, decide_eq_true_eq] at hcb1 hcb2
                simp only [Option.some.injEq, Prod.mk.injEq] at h
                obtain ⟨hc, hr⟩ := h
                subst hc hr
                have hge : 0x800 ≤ (b0 - 0xE0) * 4096 + (b1 - 0x80) * 64 + (b2 - 0x80) := by
                  by_cases hb : b0 = 0xE0
                  · have := hov hb
                    omega
                  · omega
                have hsur2 : (b0 - 0xE0) * 4096 + (b1 - 0x80) * 64 + (b2 - 0x80) < 0xD800 ∨
                    0xDFFF < (b0 - 0xE0) * 4096 + (b1 - 0x80) * 64 + (b2 - 0x80) := by
                  by_cases hb : b0 = 0xED
                  · have := hsur hb
                    omega
                  · omega
                have hv : ((b0 - 0xE0) * 4096 + (b1 - 0x80) * 64 + (b2 - 0x80) :
                    Nat).isValidChar := by
                  rcases hsur2 with hx | hx
                  · exact Or.inl hx
                  · exact Or.inr ⟨hx, by omega⟩
                rw [encodeChar_toNat_valid _ hv, if_neg (by omega), if_neg (by omega),
                  if_pos (by omega)]
                have e1 : 0xE0 + ((b0 - 0xE0) * 4096 + (b1 - 0x80) * 64 + (b2 - 0x80)) /
                    4096 = b0 := by omega
                have e2 : 0x80 + ((b0 - 0xE0) * 4096 + (b1 - 0x80) * 64 + (b2 - 0x80)) /
                    64 % 64 = b1 := by omega
                have e3 : 0x80 + ((b0 - 0xE0) * 4096 + (b1 - 0x80) * 64 + (b2 - 0x80)) %
                    64 = b2 := by omega
                rw [e1, e2, e3]
                rfl
              · simp at h
            · simp at h
          · split at h
            · split at h
              · split at h
                · rename_i hlt rest0 b1 b2 b3 r3 hcond
                  obtain ⟨hcb1, hcb2, hcb3, hov, hmax⟩ := hcond
                  simp only [isCont, decide_eq_true_eq] at hcb1 hcb2 hcb3
                  simp only [Option.some.injEq, Prod.mk.injEq] at h
                  obtain ⟨hc, hr⟩ := h
                  subst hc hr
                  have hge : 0x10000 ≤ (b0 - 0xF0) * 262144 + (b1 - 0x80) * 4096 +
                      (b2 - 0x80) * 64 + (b3 - 0x80) := by
                    by_cases hb : b0 = 0xF0
                    · have := hov hb
                      omega
                    · omega
                  have hmax2 : (b0 - 0xF0) * 262144 + (b1 - 0x80) * 4096 +
                      (b2 - 0x80) * 64 + (b3 - 0x80) < 0x110000 := by
                    by_cases hb : b0 = 0xF4
                    · have := hmax hb
                      omega
                    · omega
                  have hv : ((b0 - 0xF0) * 262144 + (b1 - 0x80) * 4096 + (b2 - 0x80) * 64 +
                      (b3 - 0x80) : Nat).isValidChar := Or.inr ⟨by omega, hmax2⟩
                  rw [encodeChar_toNat_valid _ hv, if_neg (by omega), if_neg (by omega),
                    if_neg (by omega)]
                  have e1 : 0xF0 + ((b0 - 0xF0) * 262144 + (b1 - 0x80) * 4096 +
                      (b2 - 0x80) * 64 + (b3 - 0x80)) / 262144 = b0 := by omega
                  have e2 : 0x80 + ((b0 - 0xF0) * 262144 + (b1 - 0x80) * 4096 +
                      (b2 - 0x80) * 64 + (b3 - 0x80)) / 4096 % 64 = b1 := by omega
                  have e3 : 0x80 + ((b0 - 0xF0) * 262144 + (b1 - 0x80) * 4096 +
                      (b2 - 0x80) * 64 + (b3 - 0x80)) / 64 % 64 = b2 := by omega
                  have e4 : 0x80 + ((b0 - 0xF0) * 262144 + (b1 - 0x80) * 4096 +
                      (b2 - 0x80) * 64 + (b3 - 0x80)) % 64 = b3 := by omega
                  rw [e1, e2, e3, e4]
                  rfl
                · simp at h
              · simp at h
            · simp at h

theorem encodeChar_length_pos (c : Char) : 0 < (encodeChar c).length := by
  rw [encodeChar]
  repeat' split
  all_goals simp

theorem encodeChar_length_le (c : Char) : (encodeChar c).length ≤ 4 := by
  rw [encodeChar]
  repeat' split
  all_goals simp

theorem decodeOne_shrink (bs : List Nat) (c : Char) (r : List Nat)
    (h : decodeOne bs = some (c, r)) : r.length < bs.length := by
  have hs := decodeOne_sound bs c r h
  rw [hs, List.length_append]
  have := encodeChar_length_pos c
  omega

/-- Model of the `valid_up_to` semantics of `std::str::from_utf8` (not part
of the provided sources): greedily decode scalars from the front; the
second component is the rest from the first position where no valid scalar
starts (an invalid or incomplete sequence). -/
def utf8DecodeGreedy (bs : List Nat) : Text × List Nat :=
  match hdec : decodeOne bs with
  | some p =>
    let q := utf8DecodeGreedy p.2
    (p.1 :: q.1, q.2)
  | none => ([], bs)
termination_by bs.length
decreasing_by exact decodeOne_shrink bs p.1 p.2 (by rw [hdec])

theorem greedy_eq_none (bs : List Nat) (h : decodeOne bs = none) :
    utf8DecodeGreedy bs = ([], bs) := by
  rw [utf8DecodeGreedy]
  split
  · rename_i p hp
    rw [h] at hp
    exact absurd hp (by simp)
  · rfl

theorem greedy_eq_some (bs : List Nat) (c : Char) (r : List Nat)
    (h : decodeOne bs = some (c, r)) :
    utf8DecodeGreedy bs = (c :: (utf8DecodeGreedy r).1, (utf8DecodeGreedy r).2) := by
  rw [utf8DecodeGreedy]
  split
  · rename_i p hp
    rw [h] at hp
    have hpe : p = (c, r) := (Option.some.inj hp).symm
    subst hpe
    rfl
  · rename_i hp
    rw [h] at hp
    exact absurd hp (by simp)

theorem encodeUtf8_nil : encodeUtf8 [] = [] := rfl

theorem encodeUtf8_cons (c : Char) (t : Text) :
    encodeUtf8 (c :: t) = encodeChar c ++ encodeUtf8 t := by
  simp [encodeUtf8]

theorem encodeUtf8_append (a b : Text) :
    encodeUtf8 (a ++ b) = encodeUtf8 a ++ encodeUtf8 b := by
  simp [encodeUtf8]

theorem greedy_sound (bs : List Nat) :
    bs = encodeUtf8 (utf8DecodeGreedy bs).1 ++ (utf8DecodeGreedy bs).2 := by
  match hdec : decodeOne bs with
  | some (c, r) =>
    rw [greedy_eq_some bs c r hdec]
    have ih := greedy_sound r
    have hs := decodeOne_sound bs c r hdec
    rw [hs, encodeUtf8_cons, List.append_assoc, ← ih]
  | none =>
    rw [greedy_eq_none bs hdec, encodeUtf8_nil, List.nil_append]
termination_by bs.length
decreasing_by exact decodeOne_shrink bs c r hdec

theorem char_valid (c : Char) : (c.toNat : Nat).isValidChar := c.valid

theorem decodeOne_encode (c : Char) (r : List Nat) :
    decodeOne (encodeChar c ++ r) = some (c, r) := by
  have hval : (c.toNat : Nat).isValidChar := char_valid c
  rw [encodeChar]
  by_cases h1 : c.toNat < 0x80
  · rw [if_pos h1]
    simp only [List.cons_append, List.nil_append, decodeOne]
    rw [if_pos h1, Char.ofNat_toNat]
  rw [if_neg h1]
  by_cases h2 : c.toNat < 0x800
  · rw [if_pos h2]
    simp only [List.cons_append, List.nil_append, decodeOne]
    rw [if_neg (by omega), if_neg (by omega), if_pos (by omega),
      if_pos (by simp only [isCont, decide_eq_true_eq]; omega)]
    have e : (0xC0 + c.toNat / 64 - 0xC0) * 64 + (0x80 + c.toNat % 64 - 0x80) =
        c.toNat := by omega
    rw [e, Char.ofNat_toNat]
  rw [if_neg h2]
  by_cases h3 : c.toNat < 0x10000
  · rw [if_pos h3]
    simp only [List.cons_append, List.nil_append, decodeOne]
    rw [if_neg (by omega), if_neg (by omega), if_neg (by omega), if_pos (by omega),
      if_pos (by simp only [isCont, decide_eq_true_eq]; omega)]
    have e : (0xE0 + c.toNat / 4096 - 0xE0) * 4096 + (0x80 + c.toNat / 64 % 64 - 0x80) *
        64 + (0x80 + c.toNat % 64 - 0x80) = c.toNat := by omega
    rw [e, Char.ofNat_toNat]
  · rw [if_neg h3]
    simp only [List.cons_append, List.nil_append, decodeOne]
    rw [if_neg (by omega), if_neg (by omega), if_neg (by omega), if_neg (by omega),
      if_pos (by omega), if_pos (by simp only [isCont, decide_eq_true_eq]; omega)]
    have e : (0xF0 + c.toNat / 262144 - 0xF0) * 262144 +
        (0x80 + c.toNat / 4096 % 64 - 0x80) * 4096 +
        (0x80 + c.toNat / 64 % 64 - 0x80) * 64 + (0x80 + c.toNat % 64 - 0x80) =
        c.toNat := by omega
    rw [e, Char.ofNat_toNat]

/-- A successful decode is stable under appending more bytes: the decoded
scalar only depends on the bytes it consumed. -/
theorem decodeOne_append (bs : List Nat) (c : Char) (r q : List Nat)
    (h : decodeOne bs = some (c, r)) :
    decodeOne (bs ++ q) = some (c, r ++ q) := by
  rw [decodeOne_sound bs c r h, List.append_assoc]
  exact decodeOne_encode c (r ++ q)

/-- Greedy decoding is incremental: the undecodable tail of `p ++ q`
equals the undecodable tail of (the undecodable tail of `p`) followed by
`q`.  This is the invariant that lets `from_reader` keep only the
buffer's undecoded leftover between reads. -/
theorem greedy_leftover_incr (p q : List Nat) :
    (utf8DecodeGreedy (p ++ q)).2 =
      (utf8DecodeGreedy ((utf8DecodeGreedy p).2 ++ q)).2 := by
  match hdec : decodeOne p with
  | some (c, r) =>
    rw [greedy_eq_some p c r hdec,
      greedy_eq_some (p ++ q) c (r ++ q) (decodeOne_append p c r q hdec)]
    exact greedy_leftover_incr r q
  | none =>
    rw [greedy_eq_none p hdec]
termination_by p.length
decreasing_by exact decodeOne_shrink p c r hdec

theorem decodeOne_none_of_short (c : Char) (p q : List Nat)
    (hpq : p ++ q = encodeChar c) (hlen : p.length < (encodeChar c).length) :
    decodeOne p = none := by
  have hval : (c.toNat : Nat).isValidChar := char_valid c
  have hlen4 := encodeChar_length_le c
  match p with
  | [] => simp [decodeOne]
  | x :: p1 =>
    rw [encodeChar] at hpq hlen
    by_cases h1 : c.toNat < 0x80
    · rw [if_pos h1] at hlen
      simp at hlen
    rw [if_neg h1] at hpq hlen
    by_cases h2 : c.toNat < 0x800
    · rw [if_pos h2] at hpq hlen
      simp only [List.cons_append, List.cons.injEq] at hpq
      obtain ⟨hx, hrest⟩ := hpq
      simp only [List.length_cons] at hlen
      have hp1 : p1 = [] := by
        cases p1 with
        | nil => rfl
        | cons a t => simp at hlen; omega
      subst hp1 hx
      simp only [decodeOne]
      rw [if_neg (by omega), if_neg (by omega), if_pos (by omega)]
    rw [if_neg h2] at hpq hlen
    by_cases h3 : c.toNat < 0x10000
    · rw [if_pos h3] at hpq hlen
      simp only [List.cons_append, List.cons.injEq] at hpq
      obtain ⟨hx, hrest⟩ := hpq
      simp only [List.length_cons] at hlen
      subst hx
      match p1 with
      | [] =>
        simp only [decodeOne]
        rw [if_neg (by omega), if_neg (by omega), if_neg (by omega), if_pos (by omega)]
      | [y] =>
        simp only [decodeOne]
        rw [if_neg (by omega), if_neg (by omega), if_neg (by omega), if_pos (by omega)]
      | a :: b :: t =>
        simp only [List.length_cons, List.length_nil] at hlen
        omega
    · rw [if_neg h3] at hpq hlen
      simp only [List.cons_append, List.cons.injEq] at hpq
      obtain ⟨hx, hrest⟩ := hpq
      simp only [List.length_cons] at hlen
      subst hx
      match p1 with
      | [] =>
        simp only [decodeOne]
        rw [if_neg (by omega), if_neg (by omega), if_neg (by omega), if_neg (by omega),
          if_pos (by omega)]
      | [y] =>
        simp only [decodeOne]
        rw [if_neg (by omega), if_neg (by omega), if_neg (by omega), if_neg (by omega),
          if_pos (by omega)]
      | [y, z] =>
        simp only [decodeOne]
        rw [if_neg (by omega), if_neg (by omega), if_neg (by omega), if_neg (by omega),
          if_pos (by omega)]
      | a :: b :: d :: t =>
        simp only [List.length_cons, List.length_nil] at hlen
        omega

theorem take_append_left {α : Type} (p q : List α) (n : Nat) (h : n ≤ p.length) :
    (p ++ q).take n = p.take n := by
  rw [List.take_append_eq_append_take]
  have h0 : n - p.length = 0 := by omega
  simp [h0]

/-- Decomposition of the greedy decoder on any front piece of a valid
encoding: it decodes a text split at a scalar boundary and leaves at most
an incomplete trailing scalar (fewer than four bytes, none at all when the
front is the whole encoding). -/
theorem greedy_front (t : Text) (p q : List Nat) (hpq : p ++ q = encodeUtf8 t) :
    ∃ t1 t2 r, t = t1 ++ t2 ∧ p = encodeUtf8 t1 ++ r ∧ utf8DecodeGreedy p = (t1, r) ∧
      r.length < 4 ∧ (q = [] → t2 = [] ∧ r = []) := by
  induction t generalizing p q with
  | nil =>
    rw [encodeUtf8_nil] at hpq
    obtain ⟨hp, hq⟩ := List.append_eq_nil.mp hpq
    subst hp hq
    exact ⟨[], [], [], rfl, by simp [encodeUtf8_nil],
      greedy_eq_none [] (by simp [decodeOne]), by simp, fun _ => ⟨rfl, rfl⟩⟩
  | cons c t' ih =>
    rw [encodeUtf8_cons] at hpq
    by_cases hsplit : p.length < (encodeChar c).length
    · have hpfront : p = (encodeChar c).take p.length := by
        have h1 : p = (p ++ q).take p.length := by simp
        rw [hpq, take_append_left (encodeChar c) (encodeUtf8 t') p.length
          (by omega)] at h1
        exact h1
      have hfront : p ++ (encodeChar c).drop p.length = encodeChar c := by
        have h4 := List.take_append_drop p.length (encodeChar c)
        rw [← hpfront] at h4
        exact h4
      have hnone : decodeOne p = none :=
        decodeOne_none_of_short c p ((encodeChar c).drop p.length) hfront hsplit
      refine ⟨[], c :: t', p, by simp, by simp [encodeUtf8_nil],
        greedy_eq_none p hnone, ?_, ?_⟩
      · have := encodeChar_length_le c
        omega
      · intro hq
        subst hq
        exfalso
        rw [List.append_nil] at hpq
        have : p.length = (encodeChar c).length + (encodeUtf8 t').length := by
          rw [hpq, List.length_append]
        omega
    · push_neg at hsplit
      have htake : p.take (encodeChar c).length = encodeChar c := by
        have h2 : (p ++ q).take (encodeChar c).length = encodeChar c := by
          rw [hpq, List.take_left]
        rw [take_append_left p q (encodeChar c).length hsplit] at h2
        exact h2
      have hdecomp : p = encodeChar c ++ p.drop (encodeChar c).length := by
        conv_lhs => rw [← List.take_append_drop (encodeChar c).length p]
        rw [htake]
      have hpq' : p.drop (encodeChar c).length ++ q = encodeUtf8 t' := by
        have h3 : encodeChar c ++ (p.drop (encodeChar c).length ++ q) =
            encodeChar c ++ encodeUtf8 t' := by
          rw [← List.append_assoc, ← hdecomp, hpq]
        exact List.append_cancel_left h3
      obtain ⟨t1, t2, r, ht, hpe, hgr, hrlen, hqnil⟩ := ih (p.drop (encodeChar c).length) q hpq'
      refine ⟨c :: t1, t2, r, by rw [List.cons_append, ht], ?_, ?_, hrlen, hqnil⟩
      · rw [encodeUtf8_cons, List.append_assoc, ← hpe]
        exact hdecomp
      · have hd : decodeOne p = some (c, p.drop (encodeChar c).length) := by
          conv_lhs => rw [hdecomp]
          exact decodeOne_encode c _
        rw [greedy_eq_some p c _ hd, hgr]

/-- A read event of the modelled reader: either a successful read handing
over bytes, or an error of the underlying reader (`io::Error` values other
than the UTF-8 failure are opaque; a code stands for one). -/
inductive ReadEvent where
  | chunk (bytes : List Nat)
  | ioError (e : Nat)
deriving Repr, DecidableEq

/-- One `read` call on the modelled reader: hand out at most `cap` bytes
from the front chunk (a reader may return fewer bytes than requested), pop
an error event, or report end of stream with a zero-length read. -/
def readFrom : List ReadEvent → Nat → (Except Nat (List Nat)) × List ReadEvent
  | [], _ => (.ok [], [])
  | .ioError e :: rest, _ => (.error e, rest)
  | .chunk bs :: rest, cap =>
    if bs.length ≤ cap then (.ok bs, rest)
    else (.ok (bs.take cap), .chunk (bs.drop cap) :: rest)

/-- The byte capacity of the read buffer (src/src/rope.rs line 92:
`MAX_BYTES * 2`). -/
def BUFFER_SIZE : Nat := MAX_BYTES * 2

/-- The failures of `from_reader`: invalid UTF-8 data, or an error of the
underlying reader returned unchanged. -/
inductive ReadError where
  | invalidData
  | ioError (e : Nat)
deriving Repr, DecidableEq

/-- Termination measure of the read loop: total bytes still queued plus the
number of queued events. -/
def eventsWeight : List ReadEvent → Nat
  | [] => 0
  | .chunk bs :: rest => bs.length + 1 + eventsWeight rest
  | .ioError _ :: rest => 1 + eventsWeight rest

theorem readFrom_weight (events : List ReadEvent) (cap : Nat) (bs : List Nat)
    (events2 : List ReadEvent) (h : readFrom events cap = (.ok bs, events2))
    (hne : bs ≠ []) : eventsWeight events2 < eventsWeight events := by
  match events with
  | [] =>
    simp only [readFrom, Prod.mk.injEq, Except.ok.injEq] at h
    exact absurd h.1.symm hne
  | .ioError e :: rest => simp [readFrom] at h
  | .chunk cbs :: rest =>
    simp only [readFrom] at h
    split at h
    · simp only [Prod.mk.injEq, Except.ok.injEq] at h
      obtain ⟨hb, he⟩ := h
      subst hb he
      rw [eventsWeight]
      omega
    · rename_i hlong
      simp only [Prod.mk.injEq, Except.ok.injEq] at h
      obtain ⟨hb, he⟩ := h
      subst he
      rw [eventsWeight, eventsWeight, List.length_drop]
      have hble : bs.length ≤ cap := by
        rw [← hb]
        simp
      have hcap : 0 < cap := by
        rcases Nat.eq_zero_or_pos cap with h0 | h0
        · subst h0
          rw [← hb] at hne
          simp at hne
        · exact h0
      omega

/-- The read loop of `Rope::from_reader` (src/src/rope.rs lines 96-155):
read into the free part of the buffer, feed the longest valid UTF-8 front
of the buffer to the builder, keep the rest; fail with `InvalidData` when
the full buffer holds no valid front or when data is left at end of
stream; finish the builder on a zero-length read; return a reader error
unchanged. -/
def fromReaderLoop (events : List ReadEvent) (buffer : List Nat) (acc : Text) :
    Except ReadError Rope :=
  match hre : readFrom events (BUFFER_SIZE - buffer.length) with
  | (.error e, _) => .error (.ioError e)
  | (.ok readBytes, events2) =>
    let d := utf8DecodeGreedy (buffer ++ readBytes)
    if d.2.length = BUFFER_SIZE then .error .invalidData
    else if h0 : readBytes.length = 0 then
      if 0 < d.2.length then .error .invalidData
      else .ok (Rope.fromStr (acc ++ d.1))
    else fromReaderLoop events2 d.2 (acc ++ d.1)
termination_by eventsWeight events
decreasing_by
  exact readFrom_weight events (BUFFER_SIZE - buffer.length) readBytes events2 hre
    (by intro hx; exact h0 (by rw [hx]; rfl))

/-- Creates a rope from the output of a reader (src/src/rope.rs,
`Rope::from_reader`). -/
def Rope.fromReader (events : List ReadEvent) : Except ReadError Rope :=
  fromReaderLoop events [] []

/-- All bytes the reader would deliver (ignoring error events). -/
def streamBytes : List ReadEvent → List Nat
  | [] => []
  | .chunk bs :: rest => bs ++ streamBytes rest
  | .ioError _ :: rest => streamBytes rest

theorem fromReaderLoop_eq_err (events : List ReadEvent) (buffer : List Nat) (acc : Text)
    (e : Nat) (rest2 : List ReadEvent)
    (h : readFrom events (BUFFER_SIZE - buffer.length) = (.error e, rest2)) :
    fromReaderLoop events buffer acc = .error (.ioError e) := by
  rw [fromReaderLoop]
  split
  · rename_i e2 r2 hre
    rw [h] at hre
    simp only [Prod.mk.injEq, Except.error.injEq] at hre
    rw [hre.1]
  · rename_i rb ev2 hre
    rw [h] at hre
    simp at hre

theorem fromReaderLoop_eq_ok (events : List ReadEvent) (buffer : List Nat) (acc : Text)
    (readBytes : List Nat) (events2 : List ReadEvent)
    (h : readFrom events (BUFFER_SIZE - buffer.length) = (.ok readBytes, events2)) :
    fromReaderLoop events buffer acc =
      (if (utf8DecodeGreedy (buffer ++ readBytes)).2.length = BUFFER_SIZE then
        .error .invalidData
      else if readBytes.length = 0 then
        if 0 < (utf8DecodeGreedy (buffer ++ readBytes)).2.length then
          .error .invalidData
        else .ok (Rope.fromStr (acc ++ (utf8DecodeGreedy (buffer ++ readBytes)).1))
      else fromReaderLoop events2 (utf8DecodeGreedy (buffer ++ readBytes)).2
        (acc ++ (utf8DecodeGreedy (buffer ++ readBytes)).1)) := by
  rw [fromReaderLoop]
  split
  · rename_i e2 r2 hre
    rw [h] at hre
    simp at hre
  · rename_i rb ev2 hre
    rw [h] at hre
    simp only [Prod.mk.injEq, Except.ok.injEq] at hre
    obtain ⟨hb, he⟩ := hre
    subst hb he
    simp only
    split
    · rfl
    · split
      · rfl
      · rfl

theorem BUFFER_SIZE_eq : BUFFER_SIZE = 668 := rfl

/-- The loop accepts a valid byte stream: starting from any accumulated
text and any pending buffer consistent with a remaining tail, it finishes
the builder on the full decoded text. -/
theorem fromReaderLoop_ok (events : List ReadEvent) (buffer : List Nat)
    (acc tail : Text)
    (hchunks : ∀ e ∈ events, ∃ bs, e = ReadEvent.chunk bs ∧ bs ≠ [])
    (hinv : buffer ++ streamBytes events = encodeUtf8 tail)
    (hblen : buffer.length < 4) :
    fromReaderLoop events buffer acc = .ok (Rope.fromStr (acc ++ tail)) := by
  match events with
  | [] =>
    have hre : readFrom [] (BUFFER_SIZE - buffer.length) = (.ok [], []) := rfl
    rw [fromReaderLoop_eq_ok [] buffer acc [] [] hre]
    rw [streamBytes, List.append_nil] at hinv
    obtain ⟨t1, t2, r, ht, hpe, hgr, hrlen, hqnil⟩ :=
      greedy_front tail buffer [] (by rw [List.append_nil]; exact hinv)
    obtain ⟨ht2, hr⟩ := hqnil rfl
    subst ht2 hr
    rw [List.append_nil] at ht
    subst ht
    have hd1 : (utf8DecodeGreedy (buffer ++ [])).1 = tail := by
      rw [List.append_nil, hgr]
    have hd2 : (utf8DecodeGreedy (buffer ++ [])).2 = ([] : List Nat) := by
      rw [List.append_nil, hgr]
    rw [hd1, hd2]
    rw [if_neg (by rw [BUFFER_SIZE_eq]; simp),
      if_pos (show ([] : List Nat).length = 0 from rfl), if_neg (by simp)]
  | .ioError e :: rest =>
    exfalso
    obtain ⟨bs, hb, -⟩ := hchunks (.ioError e) (by simp)
    simp at hb
  | .chunk bs :: rest =>
    obtain ⟨bs', hb, hbne⟩ := hchunks (.chunk bs) (by simp)
    have hbsne : bs ≠ [] := by
      injection hb with hb2
      rw [hb2]
      exact hbne
    have hcap : 0 < BUFFER_SIZE - buffer.length := by
      rw [BUFFER_SIZE_eq]
      omega
    have hchunks2 : ∀ e ∈ rest, ∃ cbs, e = ReadEvent.chunk cbs ∧ cbs ≠ [] := by
      intro e he
      exact hchunks e (by simp [he])
    by_cases hfit : bs.length ≤ BUFFER_SIZE - buffer.length
    · have hre : readFrom (.chunk bs :: rest) (BUFFER_SIZE - buffer.length) =
          (.ok bs, rest) := by
        simp only [readFrom, if_pos hfit]
    
      rw [fromReaderLoop_eq_ok _ buffer acc bs rest hre]
      have hinv2 : (buffer ++ bs) ++ streamBytes rest = encodeUtf8 tail := by
        rw [List.append_assoc]
        rw [streamBytes] at hinv
        exact hinv
      obtain ⟨t1, t2, r, ht, hpe, hgr, hrlen, hqnil⟩ :=
        greedy_front tail (buffer ++ bs) (streamBytes rest) hinv2
      have hd1 : (utf8DecodeGreedy (buffer ++ bs)).1 = t1 := by rw [hgr]
      have hd2 : (utf8DecodeGreedy (buffer ++ bs)).2 = r := by rw [hgr]
      rw [hd1, hd2]
      rw [if_neg (by rw [BUFFER_SIZE_eq]; omega),
        if_neg (fun hx => hbsne (List.length_eq_zero.mp hx))]
      have hstream2 : r ++ streamBytes rest = encodeUtf8 t2 := by
        have h5 : encodeUtf8 t1 ++ (r ++ streamBytes rest) =
            encodeUtf8 t1 ++ encodeUtf8 t2 := by
          rw [← List.append_assoc, ← hpe, hinv2, ht, encodeUtf8_append]
        exact List.append_cancel_left h5
      rw [fromReaderLoop_ok rest r (acc ++ t1) t2 hchunks2 hstream2 hrlen, ht,
        List.append_assoc]
    · have hre : readFrom (.chunk bs :: rest) (BUFFER_SIZE - buffer.length) =
          (.ok (bs.take (BUFFER_SIZE - buffer.length)),
            .chunk (bs.drop (BUFFER_SIZE - buffer.length)) :: rest) := by
        simp only [readFrom, if_neg hfit]
      rw [fromReaderLoop_eq_ok _ buffer acc _ _ hre]
      have hinv2 : (buffer ++ bs.take (BUFFER_SIZE - buffer.length)) ++
          streamBytes (.chunk (bs.drop (BUFFER_SIZE - buffer.length)) :: rest) =
          encodeUtf8 tail := by
        rw [streamBytes, List.append_assoc,
          ← List.append_assoc (bs.take (BUFFER_SIZE - buffer.length))
            (bs.drop (BUFFER_SIZE - buffer.length)) (streamBytes rest),
          List.take_append_drop]
        rw [streamBytes] at hinv
        exact hinv
      obtain ⟨t1, t2, r, ht, hpe, hgr, hrlen, hqnil⟩ :=
        greedy_front tail (buffer ++ bs.take (BUFFER_SIZE - buffer.length))
          (streamBytes (.chunk (bs.drop (BUFFER_SIZE - buffer.length)) :: rest)) hinv2
      have hd1 : (utf8DecodeGreedy (buffer ++ bs.take (BUFFER_SIZE - buffer.length))).1 =
          t1 := by rw [hgr]
      have hd2 : (utf8DecodeGreedy (buffer ++ bs.take (BUFFER_SIZE - buffer.length))).2 =
          r := by rw [hgr]
      rw [hd1, hd2]
      have htkne : (bs.take (BUFFER_SIZE - buffer.length)).length ≠ 0 := by
        simp only [List.length_take]
        omega
    
      rw [if_neg (by rw [BUFFER_SIZE_eq]; omega), if_neg htkne]
      have hchunks3 : ∀ e ∈ (ReadEvent.chunk (bs.drop (BUFFER_SIZE - buffer.length)) ::
          rest), ∃ cbs, e = ReadEvent.chunk cbs ∧ cbs ≠ [] := by
        intro e he
        rcases List.mem_cons.mp he with he1 | he2
        · refine ⟨bs.drop (BUFFER_SIZE - buffer.length), he1, ?_⟩
          intro hx
          have := congrArg List.length hx
          simp only [List.length_drop, List.length_nil] at this
          omega
        · exact hchunks2 e he2
      have hstream2 : r ++ streamBytes (.chunk (bs.drop (BUFFER_SIZE - buffer.length)) ::
          rest) = encodeUtf8 t2 := by
        have h5 : encodeUtf8 t1 ++ (r ++ streamBytes (.chunk
            (bs.drop (BUFFER_SIZE - buffer.length)) :: rest)) =
            encodeUtf8 t1 ++ encodeUtf8 t2 := by
          rw [← List.append_assoc, ← hpe, hinv2, ht, encodeUtf8_append]
        exact List.append_cancel_left h5
      rw [fromReaderLoop_ok _ r (acc ++ t1) t2 hchunks3 hstream2 hrlen, ht,
        List.append_assoc]
termination_by eventsWeight events
decreasing_by
  · simp only [eventsWeight]
    omega
  · simp only [eventsWeight, List.length_drop]
    rw [BUFFER_SIZE_eq] at hfit ⊢
    omega

/-- A reader with no error events never produces an io error. -/
theorem fromReaderLoop_not_ioError (events : List ReadEvent) (buffer : List Nat)
    (acc : Text) (e0 : Nat)
    (hchunks : ∀ ev ∈ events, ∃ bs, ev = ReadEvent.chunk bs ∧ bs ≠ []) :
    fromReaderLoop events buffer acc ≠ .error (.ioError e0) := by
  match events with
  | [] =>
    have hre : readFrom [] (BUFFER_SIZE - buffer.length) = (.ok [], []) := rfl
    rw [fromReaderLoop_eq_ok [] buffer acc [] [] hre]
    split
    · simp
    · rw [if_pos (show ([] : List Nat).length = 0 from rfl)]
      split
      · simp
      · simp
  | .ioError e :: rest =>
    exfalso
    obtain ⟨bs, hb, -⟩ := hchunks (.ioError e) (by simp)
    simp at hb
  | .chunk bs :: rest =>
    obtain ⟨bs', hb, hbne⟩ := hchunks (.chunk bs) (by simp)
    have hbsne : bs ≠ [] := by
      injection hb with hb2
      rw [hb2]
      exact hbne
    have hchunks2 : ∀ ev ∈ rest, ∃ cbs, ev = ReadEvent.chunk cbs ∧ cbs ≠ [] := by
      intro ev hev
      exact hchunks ev (by simp [hev])
    by_cases hfit : bs.length ≤ BUFFER_SIZE - buffer.length
    · have hre : readFrom (.chunk bs :: rest) (BUFFER_SIZE - buffer.length) =
          (.ok bs, rest) := by
        simp only [readFrom, if_pos hfit]
      rw [fromReaderLoop_eq_ok _ buffer acc bs rest hre]
      split
      · simp
      · split
        · split
          · simp
          · simp
        · exact fromReaderLoop_not_ioError rest _ _ e0 hchunks2
    · have hre : readFrom (.chunk bs :: rest) (BUFFER_SIZE - buffer.length) =
          (.ok (bs.take (BUFFER_SIZE - buffer.length)),
            .chunk (bs.drop (BUFFER_SIZE - buffer.length)) :: rest) := by
        simp only [readFrom, if_neg hfit]
      rw [fromReaderLoop_eq_ok _ buffer acc _ _ hre]
      split
      · simp
      · split
        · split
          · simp
          · simp
        · refine fromReaderLoop_not_ioError _ _ _ e0 ?_
          intro ev hev
          rcases List.mem_cons.mp hev with he1 | he2
          · refine ⟨bs.drop (BUFFER_SIZE - buffer.length), he1, ?_⟩
            intro hx
            have hlx := congrArg List.length hx
            simp only [List.length_drop, List.length_nil] at hlx
            omega
          · exact hchunks2 ev he2
termination_by eventsWeight events
decreasing_by
  · simp only [eventsWeight]
    omega
  · simp only [eventsWeight, List.length_drop]
    simp only [List.length_take] at *
    omega

/-- A successful run consumed a stream whose bytes, together with the
pending buffer, form a valid encoding. -/
theorem fromReaderLoop_ok_bytes (events : List ReadEvent) (buffer : List Nat)
    (acc : Text) (rp : Rope)
    (hchunks : ∀ ev ∈ events, ∃ bs, ev = ReadEvent.chunk bs ∧ bs ≠ [])
    (hblen : buffer.length < BUFFER_SIZE)
    (hok : fromReaderLoop events buffer acc = .ok rp) :
    ∃ s2, buffer ++ streamBytes events = encodeUtf8 s2 := by
  match events with
  | [] =>
    have hre : readFrom [] (BUFFER_SIZE - buffer.length) = (.ok [], []) := rfl
    rw [fromReaderLoop_eq_ok [] buffer acc [] [] hre] at hok
    split at hok
    · simp at hok
    · rw [if_pos (show ([] : List Nat).length = 0 from rfl)] at hok
      split at hok
      · simp at hok
      · rename_i hd2
        have hempty : (utf8DecodeGreedy (buffer ++ [])).2 = [] := by
          have := Nat.eq_zero_of_not_pos hd2
          exact List.length_eq_zero.mp this
        have hs := greedy_sound (buffer ++ [])
        rw [hempty, List.append_nil, List.append_nil] at hs
        exact ⟨(utf8DecodeGreedy buffer).1, by
          rw [streamBytes, List.append_nil]
          exact hs⟩
  | .ioError e :: rest =>
    exfalso
    obtain ⟨bs, hb, -⟩ := hchunks (.ioError e) (by simp)
    simp at hb
  | .chunk bs :: rest =>
    obtain ⟨bs', hb, hbne⟩ := hchunks (.chunk bs) (by simp)
    have hbsne : bs ≠ [] := by
      injection hb with hb2
      rw [hb2]
      exact hbne
    have hcap : 0 < BUFFER_SIZE - buffer.length := by omega
    have hchunks2 : ∀ ev ∈ rest, ∃ cbs, ev = ReadEvent.chunk cbs ∧ cbs ≠ [] := by
      intro ev hev
      exact hchunks ev (by simp [hev])
    by_cases hfit : bs.length ≤ BUFFER_SIZE - buffer.length
    · have hre : readFrom (.chunk bs :: rest) (BUFFER_SIZE - buffer.length) =
          (.ok bs, rest) := by
        simp only [readFrom, if_pos hfit]
      rw [fromReaderLoop_eq_ok _ buffer acc bs rest hre] at hok
      split at hok
      · simp at hok
      · rename_i hfull
        split at hok
        · rename_i hzero
          exact absurd (List.length_eq_zero.mp hzero) hbsne
        · have hlen2 : (utf8DecodeGreedy (buffer ++ bs)).2.length < BUFFER_SIZE := by
            have hs := greedy_sound (buffer ++ bs)
            have hl := congrArg List.length hs
            simp only [List.length_append] at hl
            omega
          obtain ⟨s2, hs2⟩ := fromReaderLoop_ok_bytes rest
            (utf8DecodeGreedy (buffer ++ bs)).2 _ rp hchunks2 hlen2 hok
          refine ⟨(utf8DecodeGreedy (buffer ++ bs)).1 ++ s2, ?_⟩
          rw [streamBytes, ← List.append_assoc, encodeUtf8_append, ← hs2,
            ← List.append_assoc]
          conv_lhs => rw [greedy_sound (buffer ++ bs)]
    · have hre : readFrom (.chunk bs :: rest) (BUFFER_SIZE - buffer.length) =
          (.ok (bs.take (BUFFER_SIZE - buffer.length)),
            .chunk (bs.drop (BUFFER_SIZE - buffer.length)) :: rest) := by
        simp only [readFrom, if_neg hfit]
      rw [fromReaderLoop_eq_ok _ buffer acc _ _ hre] at hok
      split at hok
      · simp at hok
      · rename_i hfull
        split at hok
        · rename_i hzero
          exfalso
          simp only [List.length_take] at hzero
          omega
        · have hlen2 : (utf8DecodeGreedy
              (buffer ++ bs.take (BUFFER_SIZE - buffer.length))).2.length <
              BUFFER_SIZE := by
            have hs := greedy_sound (buffer ++ bs.take (BUFFER_SIZE - buffer.length))
            have hl := congrArg List.length hs
            simp only [List.length_append, List.length_take] at hl
            omega
          obtain ⟨s2, hs2⟩ := fromReaderLoop_ok_bytes
            (.chunk (bs.drop (BUFFER_SIZE - buffer.length)) :: rest)
            (utf8DecodeGreedy (buffer ++ bs.take (BUFFER_SIZE - buffer.length))).2 _ rp
            (by
              intro ev hev
              rcases List.mem_cons.mp hev with he1 | he2
              · refine ⟨bs.drop (BUFFER_SIZE - buffer.length), he1, ?_⟩
                intro hx
                have hlx := congrArg List.length hx
                simp only [List.length_drop, List.length_nil] at hlx
                omega
              · exact hchunks2 ev he2) hlen2 hok
          refine ⟨(utf8DecodeGreedy (buffer ++ bs.take (BUFFER_SIZE -
            buffer.length))).1 ++ s2, ?_⟩
          rw [streamBytes] at hs2
          rw [streamBytes, encodeUtf8_append, ← hs2]
          conv_rhs =>
            rw [← List.append_assoc,
              ← greedy_sound (buffer ++ bs.take (BUFFER_SIZE - buffer.length)),
              List.append_assoc,
              ← List.append_assoc (bs.take (BUFFER_SIZE - buffer.length))
                (bs.drop (BUFFER_SIZE - buffer.length)) (streamBytes rest),
              List.take_append_drop]
termination_by eventsWeight events
decreasing_by
  · simp only [eventsWeight]
    omega
  · simp only [eventsWeight, List.length_drop]
    omega

/-- An error of the underlying reader is returned unchanged, provided the
data read before it was a front piece of a valid encoding (so no UTF-8
failure fires first). -/
theorem fromReaderLoop_err (evs : List ReadEvent) (e : Nat) (rest2 : List ReadEvent)
    (buffer : List Nat) (acc tail : Text) (q : List Nat)
    (hchunks : ∀ ev ∈ evs, ∃ bs, ev = ReadEvent.chunk bs ∧ bs ≠ [])
    (hfront : (buffer ++ streamBytes evs) ++ q = encodeUtf8 tail)
    (hblen : buffer.length < 4) :
    fromReaderLoop (evs ++ .ioError e :: rest2) buffer acc = .error (.ioError e) := by
  match evs with
  | [] =>
    have hre : readFrom ([] ++ ReadEvent.ioError e :: rest2)
        (BUFFER_SIZE - buffer.length) = (.error e, rest2) := rfl
    exact fromReaderLoop_eq_err _ buffer acc e rest2 hre
  | .ioError e2 :: evs' =>
    exfalso
    obtain ⟨bs, hb, -⟩ := hchunks (.ioError e2) (by simp)
    simp at hb
  | .chunk bs :: evs' =>
    obtain ⟨bs', hb, hbne⟩ := hchunks (.chunk bs) (by simp)
    have hbsne : bs ≠ [] := by
      injection hb with hb2
      rw [hb2]
      exact hbne
    have hcap : 0 < BUFFER_SIZE - buffer.length := by
      rw [BUFFER_SIZE_eq]
      omega
    have hchunks2 : ∀ ev ∈ evs', ∃ cbs, ev = ReadEvent.chunk cbs ∧ cbs ≠ [] := by
      intro ev hev
      exact hchunks ev (by simp [hev])
    rw [streamBytes] at hfront
    by_cases hfit : bs.length ≤ BUFFER_SIZE - buffer.length
    · have hre : readFrom ((.chunk bs :: evs') ++ ReadEvent.ioError e :: rest2)
          (BUFFER_SIZE - buffer.length) = (.ok bs, evs' ++ ReadEvent.ioError e :: rest2) := by
        simp only [List.cons_append, readFrom, if_pos hfit]
      rw [List.cons_append, fromReaderLoop_eq_ok _ buffer acc bs
        (evs' ++ ReadEvent.ioError e :: rest2) (by rw [← List.cons_append]; exact hre)]
      have hfront2 : (buffer ++ bs) ++ (streamBytes evs' ++ q) = encodeUtf8 tail := by
        rw [← hfront]
        simp only [List.append_assoc]
      obtain ⟨t1, t2, r, ht, hpe, hgr, hrlen, hqnil⟩ :=
        greedy_front tail (buffer ++ bs) (streamBytes evs' ++ q) hfront2
      have hd1 : (utf8DecodeGreedy (buffer ++ bs)).1 = t1 := by rw [hgr]
      have hd2 : (utf8DecodeGreedy (buffer ++ bs)).2 = r := by rw [hgr]
      rw [hd1, hd2]
      rw [if_neg (by rw [BUFFER_SIZE_eq]; omega),
        if_neg (fun hx => hbsne (List.length_eq_zero.mp hx))]
      have hfront3 : (r ++ streamBytes evs') ++ q = encodeUtf8 t2 := by
        have h5 : encodeUtf8 t1 ++ ((r ++ streamBytes evs') ++ q) =
            encodeUtf8 t1 ++ encodeUtf8 t2 := by
          rw [List.append_assoc r, ← List.append_assoc (encodeUtf8 t1), ← hpe, hfront2,
            ht, encodeUtf8_append]
        exact List.append_cancel_left h5
      exact fromReaderLoop_err evs' e rest2 r (acc ++ t1) t2 q hchunks2 hfront3 hrlen
    · have hre : readFrom ((.chunk bs :: evs') ++ ReadEvent.ioError e :: rest2)
          (BUFFER_SIZE - buffer.length) =
          (.ok (bs.take (BUFFER_SIZE - buffer.length)),
            .chunk (bs.drop (BUFFER_SIZE - buffer.length)) ::
              (evs' ++ ReadEvent.ioError e :: rest2)) := by
        simp only [List.cons_append, readFrom, if_neg hfit]
      rw [List.cons_append, fromReaderLoop_eq_ok _ buffer acc _ _
        (by rw [← List.cons_append]; exact hre)]
      have hfront2 : (buffer ++ bs.take (BUFFER_SIZE - buffer.length)) ++
          ((bs.drop (BUFFER_SIZE - buffer.length) ++ streamBytes evs') ++ q) =
          encodeUtf8 tail := by
        conv_rhs => rw [← hfront]
        conv_rhs => rw [← List.take_append_drop (BUFFER_SIZE - buffer.length) bs]
        simp only [List.append_assoc]
      obtain ⟨t1, t2, r, ht, hpe, hgr, hrlen, hqnil⟩ :=
        greedy_front tail (buffer ++ bs.take (BUFFER_SIZE - buffer.length))
          ((bs.drop (BUFFER_SIZE - buffer.length) ++ streamBytes evs') ++ q) hfront2
      have hd1 : (utf8DecodeGreedy (buffer ++ bs.take (BUFFER_SIZE - buffer.length))).1 =
          t1 := by rw [hgr]
      have hd2 : (utf8DecodeGreedy (buffer ++ bs.take (BUFFER_SIZE - buffer.length))).2 =
          r := by rw [hgr]
      rw [hd1, hd2]
      have htkne : (bs.take (BUFFER_SIZE - buffer.length)).length ≠ 0 := by
        simp only [List.length_take]
        omega
      rw [if_neg (by rw [BUFFER_SIZE_eq]; omega), if_neg htkne]
      have hfront3 : (r ++ streamBytes (.chunk (bs.drop (BUFFER_SIZE - buffer.length)) ::
          evs')) ++ q = encodeUtf8 t2 := by
        have h5 : encodeUtf8 t1 ++ ((r ++ streamBytes (.chunk (bs.drop (BUFFER_SIZE -
            buffer.length)) :: evs')) ++ q) = encodeUtf8 t1 ++ encodeUtf8 t2 := by
          rw [streamBytes, List.append_assoc r, ← List.append_assoc (encodeUtf8 t1),
            ← hpe, hfront2, ht, encodeUtf8_append]
        exact List.append_cancel_left h5
      have hcall := fromReaderLoop_err (.chunk (bs.drop (BUFFER_SIZE - buffer.length)) ::
        evs') e rest2 r (acc ++ t1) t2 q
        (by
          intro ev hev
          rcases List.mem_cons.mp hev with he1 | he2
          · refine ⟨bs.drop (BUFFER_SIZE - buffer.length), he1, ?_⟩
            intro hx
            have hlx := congrArg List.length hx
            simp only [List.length_drop, List.length_nil] at hlx
            omega
          · exact hchunks2 ev he2) hfront3 hrlen
      rw [List.cons_append] at hcall
      exact hcall
termination_by eventsWeight evs
decreasing_by
  · simp only [eventsWeight]
    omega
  · simp only [eventsWeight, List.length_drop]
    rw [BUFFER_SIZE_eq] at hfit ⊢
    omega

/-- An error of the underlying reader is returned unchanged whenever the
loop reaches it: the only check that can preempt it is the full-buffer
`InvalidData` test, which fires exactly when some prefix of the delivered
bytes has an undecodable tail filling the whole buffer.  The buffer kept
by the loop is the greedy leftover of everything delivered so far
(`past`), by `greedy_leftover_incr`; validity of the data is not
required. -/
theorem fromReaderLoop_err2 (evs : List ReadEvent) (e : Nat) (rest2 : List ReadEvent)
    (past : List Nat) (acc : Text)
    (hchunks : ∀ ev ∈ evs, ∃ bs, ev = ReadEvent.chunk bs ∧ bs ≠ [])
    (hpref : ∀ n, (utf8DecodeGreedy ((past ++ streamBytes evs).take n)).2.length <
      BUFFER_SIZE) :
    fromReaderLoop (evs ++ .ioError e :: rest2) (utf8DecodeGreedy past).2 acc =
      .error (.ioError e) := by
  have hblen : (utf8DecodeGreedy past).2.length < BUFFER_SIZE := by
    have h := hpref past.length
    rw [List.take_left] at h
    exact h
  match evs with
  | [] =>
    have hre : readFrom ([] ++ ReadEvent.ioError e :: rest2)
        (BUFFER_SIZE - (utf8DecodeGreedy past).2.length) = (.error e, rest2) := rfl
    exact fromReaderLoop_eq_err _ _ acc e rest2 hre
  | .ioError e2 :: evs' =>
    exfalso
    obtain ⟨bs, hb, -⟩ := hchunks (.ioError e2) (by simp)
    simp at hb
  | .chunk bs :: evs' =>
    obtain ⟨bs', hb, hbne⟩ := hchunks (.chunk bs) (by simp)
    have hbsne : bs ≠ [] := by
      injection hb with hb2
      rw [hb2]
      exact hbne
    have hbspos : 0 < bs.length := List.length_pos.mpr hbsne
    have hcap : 0 < BUFFER_SIZE - (utf8DecodeGreedy past).2.length := by omega
    have hchunks2 : ∀ ev ∈ evs', ∃ cbs, ev = ReadEvent.chunk cbs ∧ cbs ≠ [] := by
      intro ev hev
      exact hchunks ev (by simp [hev])
    by_cases hfit : bs.length ≤ BUFFER_SIZE - (utf8DecodeGreedy past).2.length
    · have hre : readFrom ((.chunk bs :: evs') ++ ReadEvent.ioError e :: rest2)
          (BUFFER_SIZE - (utf8DecodeGreedy past).2.length) =
          (.ok bs, evs' ++ ReadEvent.ioError e :: rest2) := by
        simp only [List.cons_append, readFrom, if_pos hfit]
      rw [List.cons_append, fromReaderLoop_eq_ok _ _ acc bs
        (evs' ++ ReadEvent.ioError e :: rest2) (by rw [← List.cons_append]; exact hre)]
      have hd : (utf8DecodeGreedy ((utf8DecodeGreedy past).2 ++ bs)).2 =
          (utf8DecodeGreedy (past ++ bs)).2 := (greedy_leftover_incr past bs).symm
      have htake : (past ++ streamBytes (ReadEvent.chunk bs :: evs')).take
          ((past ++ bs).length) = past ++ bs := by
        rw [streamBytes, ← List.append_assoc]
        exact List.take_left _ _
      have hlen : (utf8DecodeGreedy (past ++ bs)).2.length < BUFFER_SIZE := by
        have h := hpref ((past ++ bs).length)
        rw [htake] at h
        exact h
      rw [if_neg (by rw [hd]; omega),
        if_neg (fun hx => hbsne (List.length_eq_zero.mp hx)), hd]
      have hpref2 : ∀ n, (utf8DecodeGreedy (((past ++ bs) ++
          streamBytes evs').take n)).2.length < BUFFER_SIZE := by
        intro n
        have h := hpref n
        rw [streamBytes, ← List.append_assoc] at h
        exact h
      exact fromReaderLoop_err2 evs' e rest2 (past ++ bs) _ hchunks2 hpref2
    · have hre : readFrom ((.chunk bs :: evs') ++ ReadEvent.ioError e :: rest2)
          (BUFFER_SIZE - (utf8DecodeGreedy past).2.length) =
          (.ok (bs.take (BUFFER_SIZE - (utf8DecodeGreedy past).2.length)),
            .chunk (bs.drop (BUFFER_SIZE - (utf8DecodeGreedy past).2.length)) ::
              (evs' ++ ReadEvent.ioError e :: rest2)) := by
        simp only [List.cons_append, readFrom, if_neg hfit]
      rw [List.cons_append, fromReaderLoop_eq_ok _ _ acc _ _
        (by rw [← List.cons_append]; exact hre)]
      have hd : (utf8DecodeGreedy ((utf8DecodeGreedy past).2 ++
          bs.take (BUFFER_SIZE - (utf8DecodeGreedy past).2.length))).2 =
          (utf8DecodeGreedy (past ++
            bs.take (BUFFER_SIZE - (utf8DecodeGreedy past).2.length))).2 :=
        (greedy_leftover_incr past _).symm
      have hsplit : past ++ streamBytes (ReadEvent.chunk bs :: evs') =
          (past ++ bs.take (BUFFER_SIZE - (utf8DecodeGreedy past).2.length)) ++
            (bs.drop (BUFFER_SIZE - (utf8DecodeGreedy past).2.length) ++
              streamBytes evs') := by
        rw [streamBytes]
        conv_lhs => rw [← List.take_append_drop
          (BUFFER_SIZE - (utf8DecodeGreedy past).2.length) bs]
        simp only [List.append_assoc]
      have htake : (past ++ streamBytes (ReadEvent.chunk bs :: evs')).take
          ((past ++ bs.take (BUFFER_SIZE -
            (utf8DecodeGreedy past).2.length)).length) =
          past ++ bs.take (BUFFER_SIZE - (utf8DecodeGreedy past).2.length) := by
        rw [hsplit]
        exact List.take_left _ _
      have hlen : (utf8DecodeGreedy (past ++ bs.take (BUFFER_SIZE -
          (utf8DecodeGreedy past).2.length))).2.length < BUFFER_SIZE := by
        have h := hpref ((past ++ bs.take (BUFFER_SIZE -
          (utf8DecodeGreedy past).2.length)).length)
        rw [htake] at h
        exact h
      have htkne : (bs.take (BUFFER_SIZE -
          (utf8DecodeGreedy past).2.length)).length ≠ 0 := by
        simp only [List.length_take]
        omega
      rw [if_neg (by rw [hd]; omega), if_neg htkne, hd]
      have hpref2 : ∀ n, (utf8DecodeGreedy (((past ++ bs.take (BUFFER_SIZE -
          (utf8DecodeGreedy past).2.length)) ++
          streamBytes (ReadEvent.chunk (bs.drop (BUFFER_SIZE -
            (utf8DecodeGreedy past).2.length)) :: evs')).take n)).2.length <
          BUFFER_SIZE := by
        intro n
        have h := hpref n
        rw [hsplit] at h
        rw [streamBytes]
        exact h
      have hcall := fromReaderLoop_err2
        (.chunk (bs.drop (BUFFER_SIZE - (utf8DecodeGreedy past).2.length)) :: evs')
        e rest2
        (past ++ bs.take (BUFFER_SIZE - (utf8DecodeGreedy past).2.length))
        (acc ++ (utf8DecodeGreedy ((utf8DecodeGreedy past).2 ++
          bs.take (BUFFER_SIZE - (utf8DecodeGreedy past).2.length))).1)
        (by
          intro ev hev
          rcases List.mem_cons.mp hev with he1 | he2
          · refine ⟨bs.drop (BUFFER_SIZE - (utf8DecodeGreedy past).2.length),
              he1, ?_⟩
            intro hx
            have hlx := congrArg List.length hx
            simp only [List.length_drop, List.length_nil] at hlx
            omega
          · exact hchunks2 ev he2) hpref2
      rw [List.cons_append] at hcall
      exact hcall
termination_by eventsWeight evs
decreasing_by
  · simp only [eventsWeight]
    omega
  · simp only [eventsWeight, List.length_drop]
    omega

/-- With a reader error queued behind non-empty chunks, the loop can only
end in the full-buffer `InvalidData` failure or in that very error,
returned unchanged — never in success, end-of-stream `InvalidData`, or a
different error. -/
theorem fromReaderLoop_dichotomy (evs : List ReadEvent) (e : Nat)
    (rest2 : List ReadEvent) (buffer : List Nat) (acc : Text)
    (hchunks : ∀ ev ∈ evs, ∃ bs, ev = ReadEvent.chunk bs ∧ bs ≠ [])
    (hblen : buffer.length < BUFFER_SIZE) :
    fromReaderLoop (evs ++ .ioError e :: rest2) buffer acc = .error .invalidData ∨
    fromReaderLoop (evs ++ .ioError e :: rest2) buffer acc =
      .error (.ioError e) := by
  match evs with
  | [] =>
    right
    have hre : readFrom ([] ++ ReadEvent.ioError e :: rest2)
        (BUFFER_SIZE - buffer.length) = (.error e, rest2) := rfl
    exact fromReaderLoop_eq_err _ buffer acc e rest2 hre
  | .ioError e2 :: evs' =>
    exfalso
    obtain ⟨bs, hb, -⟩ := hchunks (.ioError e2) (by simp)
    simp at hb
  | .chunk bs :: evs' =>
    obtain ⟨bs', hb, hbne⟩ := hchunks (.chunk bs) (by simp)
    have hbsne : bs ≠ [] := by
      injection hb with hb2
      rw [hb2]
      exact hbne
    have hbspos : 0 < bs.length := List.length_pos.mpr hbsne
    have hcap : 0 < BUFFER_SIZE - buffer.length := by omega
    have hchunks2 : ∀ ev ∈ evs', ∃ cbs, ev = ReadEvent.chunk cbs ∧ cbs ≠ [] := by
      intro ev hev
      exact hchunks ev (by simp [hev])
    by_cases hfit : bs.length ≤ BUFFER_SIZE - buffer.length
    · have hre : readFrom ((.chunk bs :: evs') ++ ReadEvent.ioError e :: rest2)
          (BUFFER_SIZE - buffer.length) =
          (.ok bs, evs' ++ ReadEvent.ioError e :: rest2) := by
        simp only [List.cons_append, readFrom, if_pos hfit]
      rw [List.cons_append, fromReaderLoop_eq_ok _ buffer acc bs
        (evs' ++ ReadEvent.ioError e :: rest2) (by rw [← List.cons_append]; exact hre)]
      by_cases hfull : (utf8DecodeGreedy (buffer ++ bs)).2.length = BUFFER_SIZE
      · rw [if_pos hfull]
        left
        rfl
      · rw [if_neg hfull, if_neg (fun hx => hbsne (List.length_eq_zero.mp hx))]
        have hlen : (utf8DecodeGreedy (buffer ++ bs)).2.length < BUFFER_SIZE := by
          have hs := greedy_sound (buffer ++ bs)
          have hl := congrArg List.length hs
          simp only [List.length_append] at hl
          omega
        exact fromReaderLoop_dichotomy evs' e rest2 _ _ hchunks2 hlen
    · have hre : readFrom ((.chunk bs :: evs') ++ ReadEvent.ioError e :: rest2)
          (BUFFER_SIZE - buffer.length) =
          (.ok (bs.take (BUFFER_SIZE - buffer.length)),
            .chunk (bs.drop (BUFFER_SIZE - buffer.length)) ::
              (evs' ++ ReadEvent.ioError e :: rest2)) := by
        simp only [List.cons_append, readFrom, if_neg hfit]
      rw [List.cons_append, fromReaderLoop_eq_ok _ buffer acc _ _
        (by rw [← List.cons_append]; exact hre)]
      by_cases hfull : (utf8DecodeGreedy (buffer ++
          bs.take (BUFFER_SIZE - buffer.length))).2.length = BUFFER_SIZE
      · rw [if_pos hfull]
        left
        rfl
      · have htkne : (bs.take (BUFFER_SIZE - buffer.length)).length ≠ 0 := by
          simp only [List.length_take]
          omega
        rw [if_neg hfull, if_neg htkne]
        have hlen : (utf8DecodeGreedy (buffer ++
            bs.take (BUFFER_SIZE - buffer.length))).2.length < BUFFER_SIZE := by
          have hs := greedy_sound (buffer ++ bs.take (BUFFER_SIZE - buffer.length))
          have hl := congrArg List.length hs
          simp only [List.length_append, List.length_take] at hl
          omega
        have hcall := fromReaderLoop_dichotomy
          (.chunk (bs.drop (BUFFER_SIZE - buffer.length)) :: evs') e rest2
          (utf8DecodeGreedy (buffer ++ bs.take (BUFFER_SIZE - buffer.length))).2
          (acc ++ (utf8DecodeGreedy (buffer ++
            bs.take (BUFFER_SIZE - buffer.length))).1)
          (by
            intro ev hev
            rcases List.mem_cons.mp hev with he1 | he2
            · refine ⟨bs.drop (BUFFER_SIZE - buffer.length), he1, ?_⟩
              intro hx
              have hlx := congrArg List.length hx
              simp only [List.length_drop, List.length_nil] at hlx
              omega
            · exact hchunks2 ev he2) hlen
        rw [List.cons_append] at hcall
        exact hcall
termination_by eventsWeight evs
decreasing_by
  · simp only [eventsWeight]
    omega
  · simp only [eventsWeight, List.length_drop]
    omega

/-- The encoding of a scalar is non-empty and its first byte is below
`0xF5`. -/
theorem encodeChar_head_lt (c : Char) :
    ∃ b l, encodeChar c = b :: l ∧ b < 0xF5 := by
  have hlt : c.toNat < 0x110000 := by
    have hv := char_valid c
    rcases hv with h | ⟨h1, h2⟩ <;> omega
  simp only [encodeChar]
  by_cases h1 : c.toNat < 0x80
  · rw [if_pos h1]
    exact ⟨_, _, rfl, by omega⟩
  · rw [if_neg h1]
    by_cases h2 : c.toNat < 0x800
    · rw [if_pos h2]
      exact ⟨_, _, rfl, by omega⟩
    · rw [if_neg h2]
      by_cases h3 : c.toNat < 0x10000
      · rw [if_pos h3]
        exact ⟨_, _, rfl, by omega⟩
      · rw [if_neg h3]
        refine ⟨_, _, rfl, ?_⟩
        omega

/-- No encoded text starts with the byte `0xFF` (it is never a UTF-8
first byte). -/
theorem head_255_not_encode (s : Text) (l : List Nat) : encodeUtf8 s ≠ 255 :: l := by
  cases s with
  | nil => simp [encodeUtf8]
  | cons c t =>
    rw [encodeUtf8_cons]
    obtain ⟨b, bl, hb, hlt⟩ := encodeChar_head_lt c
    rw [hb]
    simp only [List.cons_append, ne_eq, List.cons.injEq, not_and]
    intro hbeq
    exfalso
    omega

/-! ### A reference-counted heap model for clone isolation (Claim C8)

The `Rope` facade holds its root as `Arc<Node>` and derives `Clone`
(src/src/rope.rs lines 64-67), so cloning a rope copies nothing: the two
ropes share the tree and the root's reference count goes up.  Mutation
goes through `Arc::make_mut` (src/src/rope.rs line 194).  Modelled from
the spec: mutation is copy-on-write — a node is cloned iff its reference
count exceeds one (the node-level walk lives in the missing `tree.rs`).
The model keeps node records in a store with explicit reference counts;
the edit is the copy-on-write path walk that splices text into the leaf
holding the char index.  Leaf splitting and rebalancing do not interact
with sharing and are covered by the pure model above. -/

/-- A stored node: a leaf with its text, or an internal node whose child
slots carry the child subtree's cached char count and the child's id
(mirroring `NodeChildren`, a list of `(TextInfo, Arc<Node>)` pairs). -/
inductive HNode where
  | leaf (t : Text)
  | internal (cs : List (Nat × Nat))
deriving Repr

/-- The child ids referenced by a stored node. -/
def HNode.childIds : HNode → List Nat
  | .leaf _ => []
  | .internal cs => cs.map Prod.snd

/-- The store: node records, reference counts, and the next fresh id. -/
structure Heap where
  nodes : Nat → HNode
  rc : Nat → Nat
  next : Nat

/-- Every allocated node's children are allocated. -/
abbrev Heap.closed (h : Heap) : Prop :=
  ∀ j, j < h.next → ∀ c ∈ (h.nodes j).childIds, c < h.next

/-- Every allocated node is owned: its reference count is at least one. -/
abbrev Heap.live (h : Heap) : Prop :=
  ∀ j, j < h.next → 1 ≤ h.rc j

/-- `Rope::clone` (the derived `Clone` on the `Arc` root): nothing is
copied, the root's reference count goes up by one. -/
def cloneRope (h : Heap) (root : Nat) : Heap :=
  { h with rc := fun j => if j = root then h.rc j + 1 else h.rc j }

/-- Write a node record in place. -/
def setNode (h : Heap) (id : Nat) (n : HNode) : Heap :=
  { h with nodes := fun j => if j = id then n else h.nodes j }

/-- The heap after copying node `id` to the fresh id: the copy shares the
children, whose counts go up; the caller's reference moves from `id` to
the copy, which starts at count one. -/
def copyHeap (h : Heap) (id : Nat) : Heap :=
  { nodes := fun j => if j = h.next then h.nodes id else h.nodes j
    rc := fun j =>
      (if j = h.next then 1 else if j = id then h.rc id - 1 else h.rc j) +
        (h.nodes id).childIds.count j
    next := h.next + 1 }

/-- `Arc::make_mut`: with a reference count of one the caller may mutate
the node in place; otherwise the node is copied to a fresh id and the
caller's reference moves to the copy. -/
def makeMut (h : Heap) (id : Nat) : Nat × Heap :=
  if h.rc id ≤ 1 then (id, h) else (h.next, copyHeap h id)

mutual

/-- The copy-on-write insert walk (modelled from the spec: §4.2 routing
plus the copy-on-write discipline): make the current node unique via
`makeMut`, then splice at a leaf, or descend into the child holding char
index `i`, updating that slot's cached count and child id in place.  The
depth budget `fuel` makes the recursion structural. -/
def hInsert : Nat → Heap → Nat → Nat → Text → Option (Nat × Heap)
  | 0, _, _, _, _ => none
  | fuel + 1, h, id, i, s =>
    let m := makeMut h id
    match m.2.nodes m.1 with
    | .leaf t => some (m.1, setNode m.2 m.1 (.leaf (splice t i s)))
    | .internal cs =>
      match hInsertChildren fuel m.2 cs i s with
      | none => none
      | some (cs2, h2) => some (m.1, setNode h2 m.1 (.internal cs2))

/-- Child selection for the copy-on-write walk: insert into the first
child when the index falls inside it, step past it otherwise; the last
child receives any remaining index. -/
def hInsertChildren : Nat → Heap → List (Nat × Nat) → Nat → Text →
    Option (List (Nat × Nat) × Heap)
  | 0, _, _, _, _ => none
  | _ + 1, _, [], _, _ => none
  | fuel + 1, h, [(cnt, c)], i, s =>
    match hInsert fuel h c i s with
    | none => none
    | some (c2, h2) => some ([(cnt + s.length, c2)], h2)
  | fuel + 1, h, (cnt, c) :: p :: cs, i, s =>
    if i ≤ cnt then
      match hInsert fuel h c i s with
      | none => none
      | some (c2, h2) => some ((cnt + s.length, c2) :: p :: cs, h2)
    else
      match hInsertChildren fuel h (p :: cs) (i - cnt) s with
      | none => none
      | some (cs2, h2) => some ((cnt, c) :: cs2, h2)

end

mutual

/-- Read the subtree at `id` back as a pure node within a depth budget,
checking the representation as it goes: internal nodes are non-empty and
every slot's cached count equals the child subtree's char count. -/
def viewAt : Nat → Heap → Nat → Option Node
  | 0, _, _ => none
  | fuel + 1, h, id =>
    match h.nodes id with
    | .leaf t => some (Node.leaf t)
    | .internal [] => none
    | .internal (p :: cs) =>
      match viewList fuel h (p :: cs) with
      | none => none
      | some ts => some (Node.internal ts)

/-- Read a list of child slots back as pure nodes, checking cached
counts. -/
def viewList : Nat → Heap → List (Nat × Nat) → Option (List Node)
  | 0, _, _ => none
  | _ + 1, _, [] => some []
  | fuel + 1, h, (cnt, c) :: cs =>
    match viewAt fuel h c, viewList fuel h cs with
    | some t, some ts => if cnt = t.charCount then some (t :: ts) else none
    | _, _ => none

end

/-- The text of the rope rooted at `id`, read back from the heap. -/
def heapText (fuel : Nat) (h : Heap) (id : Nat) : Option Text :=
  (viewAt fuel h id).map Node.text

theorem splice_length (t : Text) (i : Nat) (s : Text) :
    (splice t i s).length = t.length + s.length := by
  simp only [splice, List.length_append, List.length_take, List.length_drop]
  omega

theorem makeMut_eq_copy (h : Heap) (id : Nat) (hrc : 2 ≤ h.rc id) :
    makeMut h id = (h.next, copyHeap h id) := by
  rw [makeMut, if_neg (by omega)]

theorem copyHeap_next (h : Heap) (id : Nat) : (copyHeap h id).next = h.next + 1 := rfl

theorem copyHeap_nodes_ne (h : Heap) (id j : Nat) (hne : j ≠ h.next) :
    (copyHeap h id).nodes j = h.nodes j := by
  simp [copyHeap, hne]

theorem copyHeap_nodes_self (h : Heap) (id : Nat) :
    (copyHeap h id).nodes h.next = h.nodes id := by
  simp [copyHeap]

theorem copyHeap_closed (h : Heap) (id : Nat) (hcl : h.closed) (hid : id < h.next) :
    (copyHeap h id).closed := by
  intro j hj c hc
  rw [copyHeap_next] at hj
  by_cases hje : j = h.next
  · subst hje
    rw [copyHeap_nodes_self] at hc
    have := hcl id hid c hc
    rw [copyHeap_next]
    omega
  · rw [copyHeap_nodes_ne h id j hje] at hc
    have := hcl j (by omega) c hc
    rw [copyHeap_next]
    omega

theorem copyHeap_live (h : Heap) (id : Nat) (hlive : h.live) (hrc : 2 ≤ h.rc id) :
    (copyHeap h id).live := by
  intro j hj
  rw [copyHeap_next] at hj
  show 1 ≤ (if j = h.next then 1 else if j = id then h.rc id - 1 else h.rc j) +
    (h.nodes id).childIds.count j
  by_cases hje : j = h.next
  · rw [if_pos hje]
    omega
  · rw [if_neg hje]
    by_cases hji : j = id
    · rw [if_pos hji]
      omega
    · rw [if_neg hji]
      have := hlive j (by omega)
      omega

theorem copyHeap_child_rc (h : Heap) (id c : Nat) (hlive : h.live)
    (hcl : h.closed) (hid : id < h.next) (hrc : 2 ≤ h.rc id)
    (hc : c ∈ (h.nodes id).childIds) :
    2 ≤ (copyHeap h id).rc c := by
  have hclt : c < h.next := hcl id hid c hc
  have hcount : 1 ≤ (h.nodes id).childIds.count c := List.one_le_count_iff.mpr hc
  show 2 ≤ (if c = h.next then 1 else if c = id then h.rc id - 1 else h.rc c) +
    (h.nodes id).childIds.count c
  rw [if_neg (by omega)]
  by_cases hci : c = id
  · rw [if_pos hci]
    omega
  · rw [if_neg hci]
    have := hlive c hclt
    omega

theorem setNode_next (h : Heap) (id : Nat) (n : HNode) :
    (setNode h id n).next = h.next := rfl

theorem setNode_rc (h : Heap) (id : Nat) (n : HNode) :
    (setNode h id n).rc = h.rc := rfl

theorem setNode_nodes_self (h : Heap) (id : Nat) (n : HNode) :
    (setNode h id n).nodes id = n := by
  simp [setNode]

theorem setNode_nodes_ne (h : Heap) (id j : Nat) (n : HNode) (hne : j ≠ id) :
    (setNode h id n).nodes j = h.nodes j := by
  simp [setNode, hne]

mutual

/-- Reading a subtree only looks at node records below `n` when the root
is below `n` and children stay below `n`. -/
theorem viewAt_frame (fuel : Nat) (h h2 : Heap) (n id : Nat)
    (hagree : ∀ j, j < n → h2.nodes j = h.nodes j)
    (hcl : ∀ j, j < n → ∀ c ∈ (h.nodes j).childIds, c < n)
    (hid : id < n) :
    viewAt fuel h2 id = viewAt fuel h id := by
  match fuel with
  | 0 => rfl
  | fuel + 1 =>
    rw [viewAt, viewAt, hagree id hid]
    cases hn : h.nodes id with
    | leaf t => rfl
    | internal cs =>
      cases cs with
      | nil => rfl
      | cons p cs =>
        have hcs : ∀ q ∈ p :: cs, q.2 < n := by
          intro q hq
          refine hcl id hid q.2 ?_
          rw [hn, HNode.childIds]
          exact List.mem_map.mpr ⟨q, hq, rfl⟩
        simp only [viewList_frame fuel h h2 n (p :: cs) hagree hcl hcs]

/-- List version of `viewAt_frame`. -/
theorem viewList_frame (fuel : Nat) (h h2 : Heap) (n : Nat) (cs : List (Nat × Nat))
    (hagree : ∀ j, j < n → h2.nodes j = h.nodes j)
    (hcl : ∀ j, j < n → ∀ c ∈ (h.nodes j).childIds, c < n)
    (hcs : ∀ q ∈ cs, q.2 < n) :
    viewList fuel h2 cs = viewList fuel h cs := by
  match fuel with
  | 0 => rfl
  | fuel + 1 =>
    cases cs with
    | nil => rfl
    | cons p rest =>
      obtain ⟨cnt, c⟩ := p
      rw [viewList, viewList,
        viewAt_frame fuel h h2 n c hagree hcl (hcs (cnt, c) (by simp)),
        viewList_frame fuel h h2 n rest hagree hcl
          (fun q hq => hcs q (by simp [hq]))]

end

mutual

/-- Reading a subtree is unaffected by a write at an id that no node
references and that is not the root being read. -/
theorem viewAt_avoid (fuel : Nat) (h : Heap) (w : Nat) (nd : HNode) (id : Nat)
    (hcl : ∀ j, j < h.next → ∀ c ∈ (h.nodes j).childIds, c < h.next)
    (hunref : ∀ j, j < h.next → w ∉ (h.nodes j).childIds)
    (hid : id < h.next) (hne : id ≠ w) :
    viewAt fuel (setNode h w nd) id = viewAt fuel h id := by
  match fuel with
  | 0 => rfl
  | fuel + 1 =>
    have hn2 : (setNode h w nd).nodes id = h.nodes id := by
      simp [setNode, hne]
    rw [viewAt, viewAt, hn2]
    cases hn : h.nodes id with
    | leaf t => rfl
    | internal cs =>
      cases cs with
      | nil => rfl
      | cons p cs =>
        have hcs : ∀ q ∈ p :: cs, q.2 < h.next ∧ q.2 ≠ w := by
          intro q hq
          have hmem : q.2 ∈ (h.nodes id).childIds := by
            rw [hn, HNode.childIds]
            exact List.mem_map.mpr ⟨q, hq, rfl⟩
          refine ⟨hcl id hid q.2 hmem, ?_⟩
          intro hx
          exact hunref id hid (hx ▸ hmem)
        simp only [viewList_avoid fuel h w nd (p :: cs) hcl hunref hcs]

/-- List version of `viewAt_avoid`. -/
theorem viewList_avoid (fuel : Nat) (h : Heap) (w : Nat) (nd : HNode)
    (cs : List (Nat × Nat))
    (hcl : ∀ j, j < h.next → ∀ c ∈ (h.nodes j).childIds, c < h.next)
    (hunref : ∀ j, j < h.next → w ∉ (h.nodes j).childIds)
    (hcs : ∀ q ∈ cs, q.2 < h.next ∧ q.2 ≠ w) :
    viewList fuel (setNode h w nd) cs = viewList fuel h cs := by
  match fuel with
  | 0 => rfl
  | fuel + 1 =>
    cases cs with
    | nil => rfl
    | cons p rest =>
      obtain ⟨cnt, c⟩ := p
      obtain ⟨hclt, hcw⟩ := hcs (cnt, c) (by simp)
      rw [viewList, viewList,
        viewAt_avoid fuel h w nd c hcl hunref hclt hcw,
        viewList_avoid fuel h w nd rest hcl hunref
          (fun q hq => hcs q (by simp [hq]))]

end

mutual

/-- The copy-on-write walk on a shared node (count at least two) always
copies: it returns the fresh id, touches no pre-existing node record,
preserves the heap invariants, creates no reference to any previously
unreferenced id, and the new root reads back as the old subtree with the
text spliced in. -/
theorem hInsert_cow (fuel : Nat) (h : Heap) (id i : Nat) (s : Text) (t : Node)
    (hcl : h.closed) (hlive : h.live)
    (hid : id < h.next) (hrc : 2 ≤ h.rc id)
    (hview : viewAt fuel h id = some t) :
    ∃ h2, hInsert fuel h id i s = some (h.next, h2) ∧
      h.next + 1 ≤ h2.next ∧
      (∀ j, j < h.next → h2.nodes j = h.nodes j) ∧
      h2.closed ∧ h2.live ∧
      (∀ w, w < h.next → (∀ j, j < h.next → w ∉ (h.nodes j).childIds) →
        ∀ j, j < h2.next → w ∉ (h2.nodes j).childIds) ∧
      (∃ t2, viewAt fuel h2 h.next = some t2 ∧
        Node.text t2 = splice (Node.text t) i s) := by
  match fuel with
  | 0 => simp [viewAt] at hview
  | fuel + 1 =>
    have hm := makeMut_eq_copy h id hrc
    cases hn : h.nodes id with
    | leaf t0 =>
      simp only [viewAt, hn, Option.some.injEq] at hview
      subst hview
      refine ⟨setNode (copyHeap h id) h.next (HNode.leaf (splice t0 i s)),
        ?_, ?_, ?_, ?_, ?_, ?_, ?_⟩
      · simp only [hInsert, hm, copyHeap_nodes_self, hn]
      · rw [setNode_next, copyHeap_next]
      · intro j hj
        rw [setNode_nodes_ne _ _ _ _ (by omega), copyHeap_nodes_ne h id j (by omega)]
      · intro j hj c hc
        rw [setNode_next, copyHeap_next] at hj
        rw [setNode_next, copyHeap_next]
        by_cases hje : j = h.next
        · rw [hje, setNode_nodes_self] at hc
          simp [HNode.childIds] at hc
        · rw [setNode_nodes_ne _ _ _ _ hje, copyHeap_nodes_ne h id j hje] at hc
          have := hcl j (by omega) c hc
          omega
      · intro j hj
        rw [setNode_next] at hj
        rw [setNode_rc]
        exact copyHeap_live h id hlive hrc j hj
      · intro w hw hunref j hj
        rw [setNode_next, copyHeap_next] at hj
        by_cases hje : j = h.next
        · rw [hje, setNode_nodes_self]
          simp [HNode.childIds]
        · rw [setNode_nodes_ne _ _ _ _ hje, copyHeap_nodes_ne h id j hje]
          exact hunref j (by omega)
      · refine ⟨Node.leaf (splice t0 i s), ?_, ?_⟩
        · simp only [viewAt, setNode_nodes_self]
        · rw [text_leaf, text_leaf]
    | internal cs0 =>
      cases cs0 with
      | nil =>
        simp only [viewAt, hn] at hview
        exact Option.noConfusion hview
      | cons p cs' =>
        simp only [viewAt, hn] at hview
        cases hvl : viewList fuel h (p :: cs') with
        | none => rw [hvl] at hview; simp at hview
        | some ts =>
          rw [hvl] at hview
          simp only [Option.some.injEq] at hview
          subst hview
          have hboundBase : ∀ q ∈ p :: cs', q.2 < h.next := by
            intro q hq
            refine hcl id hid q.2 ?_
            rw [hn, HNode.childIds]
            exact List.mem_map.mpr ⟨q, hq, rfl⟩
          have hcl' := copyHeap_closed h id hcl hid
          have hlive' := copyHeap_live h id hlive hrc
          have hbound' : ∀ q ∈ p :: cs', q.2 < (copyHeap h id).next := by
            intro q hq
            rw [copyHeap_next]
            have := hboundBase q hq
            omega
          have hrc' : ∀ q ∈ p :: cs', 2 ≤ (copyHeap h id).rc q.2 := by
            intro q hq
            refine copyHeap_child_rc h id q.2 hlive hcl hid hrc ?_
            rw [hn, HNode.childIds]
            exact List.mem_map.mpr ⟨q, hq, rfl⟩
          have hvl' : viewList fuel (copyHeap h id) (p :: cs') = some ts := by
            rw [viewList_frame fuel h (copyHeap h id) h.next (p :: cs')
              (fun j hj => copyHeap_nodes_ne h id j (by omega)) hcl hboundBase]
            exact hvl
          obtain ⟨cs2, h2, hres, hcs2ne, hnext2, hframe2, hcl2, hlive2, hbound2,
            hR2, ts2, hvl2, htxt2⟩ :=
            hInsertChildren_cow fuel (copyHeap h id) (p :: cs') i s ts
              hcl' hlive' hbound' hrc' hvl' (by simp)
          rw [copyHeap_next] at hnext2
          refine ⟨setNode h2 h.next (HNode.internal cs2), ?_, ?_, ?_, ?_, ?_, ?_, ?_⟩
          · simp only [hInsert, hm, copyHeap_nodes_self, hn, hres]
          · rw [setNode_next]
            omega
          · intro j hj
            rw [setNode_nodes_ne _ _ _ _ (by omega),
              hframe2 j (by rw [copyHeap_next]; omega),
              copyHeap_nodes_ne h id j (by omega)]
          · intro j hj c hc
            rw [setNode_next] at hj
            rw [setNode_next]
            by_cases hje : j = h.next
            · rw [hje, setNode_nodes_self, HNode.childIds] at hc
              obtain ⟨q, hq, hqe⟩ := List.mem_map.mp hc
              have := hbound2 q hq
              omega
            · rw [setNode_nodes_ne _ _ _ _ hje] at hc
              exact hcl2 j hj c hc
          · intro j hj
            rw [setNode_next] at hj
            rw [setNode_rc]
            exact hlive2 j hj
          · intro w hw hunref
            have hunref' : ∀ j, j < (copyHeap h id).next →
                w ∉ ((copyHeap h id).nodes j).childIds := by
              intro j hj
              rw [copyHeap_next] at hj
              by_cases hje : j = h.next
              · rw [hje, copyHeap_nodes_self]
                exact hunref id hid
              · rw [copyHeap_nodes_ne h id j hje]
                exact hunref j (by omega)
            have hcsneW : ∀ q ∈ p :: cs', q.2 ≠ w := by
              intro q hq hx
              apply hunref id hid
              rw [hn, HNode.childIds]
              exact List.mem_map.mpr ⟨q, hq, hx⟩
            obtain ⟨hunref2, hcs2w⟩ := hR2 w (by rw [copyHeap_next]; omega)
              hunref' hcsneW
            intro j hj
            rw [setNode_next] at hj
            by_cases hje : j = h.next
            · rw [hje, setNode_nodes_self, HNode.childIds]
              intro hcmem
              obtain ⟨q, hq, hqe⟩ := List.mem_map.mp hcmem
              exact hcs2w q hq hqe
            · rw [setNode_nodes_ne _ _ _ _ hje]
              exact hunref2 j hj
          · have hunrefN : ∀ j, j < (copyHeap h id).next →
                h.next ∉ ((copyHeap h id).nodes j).childIds := by
              intro j hj
              rw [copyHeap_next] at hj
              by_cases hje : j = h.next
              · rw [hje, copyHeap_nodes_self]
                intro hx
                have := hcl id hid h.next hx
                omega
              · rw [copyHeap_nodes_ne h id j hje]
                intro hx
                have := hcl j (by omega) h.next hx
                omega
            have hcsneN : ∀ q ∈ p :: cs', q.2 ≠ h.next := by
              intro q hq
              have := hboundBase q hq
              omega
            obtain ⟨hunref2N, hcs2N⟩ := hR2 h.next (by rw [copyHeap_next]; omega)
              hunrefN hcsneN
            obtain ⟨q0, qs0, hcs2shape⟩ := List.exists_cons_of_ne_nil hcs2ne
            have hvl3 : viewList fuel (setNode h2 h.next (HNode.internal cs2))
                cs2 = some ts2 := by
              rw [viewList_avoid fuel h2 h.next (HNode.internal cs2) cs2 hcl2
                hunref2N (fun q hq => ⟨hbound2 q hq, hcs2N q hq⟩)]
              exact hvl2
            refine ⟨Node.internal ts2, ?_, ?_⟩
            · rw [hcs2shape] at hvl3 ⊢
              simp only [viewAt, setNode_nodes_self, hvl3]
            · rw [text_internal, text_internal]
              exact htxt2

/-- List version of `hInsert_cow`: all listed children are shared; the
walk inserts into the child holding the index, replaces that slot by the
fresh copy with its count increased by the inserted length, and leaves
every other slot and every pre-existing node record untouched. -/
theorem hInsertChildren_cow (fuel : Nat) (h : Heap) (cs : List (Nat × Nat))
    (i : Nat) (s : Text) (ts : List Node)
    (hcl : h.closed) (hlive : h.live)
    (hbound : ∀ p ∈ cs, p.2 < h.next)
    (hrc : ∀ p ∈ cs, 2 ≤ h.rc p.2)
    (hview : viewList fuel h cs = some ts)
    (hne : cs ≠ []) :
    ∃ cs2 h2, hInsertChildren fuel h cs i s = some (cs2, h2) ∧
      cs2 ≠ [] ∧
      h.next ≤ h2.next ∧
      (∀ j, j < h.next → h2.nodes j = h.nodes j) ∧
      h2.closed ∧ h2.live ∧
      (∀ p ∈ cs2, p.2 < h2.next) ∧
      (∀ w, w < h.next → (∀ j, j < h.next → w ∉ (h.nodes j).childIds) →
        (∀ p ∈ cs, p.2 ≠ w) →
        ((∀ j, j < h2.next → w ∉ (h2.nodes j).childIds) ∧ ∀ p ∈ cs2, p.2 ≠ w)) ∧
      (∃ ts2, viewList fuel h2 cs2 = some ts2 ∧
        textAux ts2 = splice (textAux ts) i s) := by
  match fuel with
  | 0 => simp [viewList] at hview
  | fuel + 1 =>
    cases cs with
    | nil => exact absurd rfl hne
    | cons p0 rest =>
      obtain ⟨cnt, c⟩ := p0
      cases rest with
      | nil =>
        cases fuel with
        | zero => simp [viewList, viewAt] at hview
        | succ f =>
          simp only [viewList] at hview
          cases hva : viewAt (f + 1) h c with
          | none => rw [hva] at hview; simp at hview
          | some tc =>
            rw [hva] at hview
            simp only [Option.some.injEq] at hview
            split at hview
            case isFalse => simp at hview
            case isTrue hcc =>
            simp only [Option.some.injEq] at hview
            subst hview
            obtain ⟨h2, hres, hnext2, hframe2, hcl2, hlive2, hR2, t2, hv2, ht2⟩ :=
              hInsert_cow (f + 1) h c i s tc hcl hlive
                (hbound (cnt, c) (by simp)) (hrc (cnt, c) (by simp)) hva
            have hcc2 : cnt + s.length = t2.charCount := by
              show cnt + s.length = (Node.text t2).length
              rw [ht2, splice_length]
              have : cnt = (Node.text tc).length := hcc
              omega
            refine ⟨[(cnt + s.length, h.next)], h2, ?_, by simp, by omega,
              hframe2, hcl2, hlive2, ?_, ?_, ?_⟩
            · simp only [hInsertChildren, hres]
            · intro q hq
              simp only [List.mem_singleton] at hq
              subst hq
              omega
            · refine fun w hw hunref hcsw => ⟨hR2 w hw hunref, ?_⟩
              intro q hq
              simp only [List.mem_singleton] at hq
              subst hq
              show h.next ≠ w
              omega
            · refine ⟨[t2], ?_, ?_⟩
              · simp only [viewList, hv2, if_pos hcc2]
              · rw [textAux_cons, textAux_nil, textAux_cons, textAux_nil,
                  List.append_nil, List.append_nil, ht2]
      | cons p1 rest' =>
        cases fuel with
        | zero => simp [viewList, viewAt] at hview
        | succ f =>
          rw [viewList] at hview
          cases hva : viewAt (f + 1) h c with
          | none => rw [hva] at hview; simp at hview
          | some tc =>
            cases hvl1 : viewList (f + 1) h (p1 :: rest') with
            | none => rw [hva, hvl1] at hview; simp at hview
            | some ts' =>
              rw [hva, hvl1] at hview
              simp only [Option.some.injEq] at hview
              split at hview
              case isFalse => simp at hview
              case isTrue hcc =>
              simp only [Option.some.injEq] at hview
              subst hview
              have hlenc : (Node.text tc).length = cnt := hcc.symm
              by_cases hile : i ≤ cnt
              · obtain ⟨h2, hres, hnext2, hframe2, hcl2, hlive2, hR2,
                  t2, hv2, ht2⟩ :=
                  hInsert_cow (f + 1) h c i s tc hcl hlive
                    (hbound (cnt, c) (by simp)) (hrc (cnt, c) (by simp)) hva
                have hcc2 : cnt + s.length = t2.charCount := by
                  show cnt + s.length = (Node.text t2).length
                  rw [ht2, splice_length]
                  omega
                refine ⟨(cnt + s.length, h.next) :: p1 :: rest', h2, ?_,
                  by simp, by omega, hframe2, hcl2, hlive2, ?_, ?_, ?_⟩
                · simp only [hInsertChildren, if_pos hile, hres]
                · intro q hq
                  rcases List.mem_cons.mp hq with hq1 | hq2
                  · subst hq1
                    show h.next < h2.next
                    omega
                  · have := hbound q (by simp [hq2])
                    omega
                · refine fun w hw hunref hcsw => ⟨hR2 w hw hunref, ?_⟩
                  intro q hq
                  rcases List.mem_cons.mp hq with hq1 | hq2
                  · subst hq1
                    show h.next ≠ w
                    omega
                  · exact hcsw q (by simp [hq2])
                · refine ⟨t2 :: ts', ?_, ?_⟩
                  · have hvl1b : viewList (f + 1) h2 (p1 :: rest') = some ts' := by
                      rw [viewList_frame (f + 1) h h2 h.next (p1 :: rest')
                        hframe2 hcl (fun q hq => hbound q (by simp [hq]))]
                      exact hvl1
                    rw [viewList, hv2, hvl1b]
                    simp only [if_pos hcc2]
                  · rw [textAux_cons, textAux_cons, ht2,
                      splice_append_left (Node.text tc) (textAux ts') s i
                        (by omega)]
              · have hbound1 : ∀ q ∈ p1 :: rest', q.2 < h.next :=
                  fun q hq => hbound q (by simp [hq])
                have hrc1 : ∀ q ∈ p1 :: rest', 2 ≤ h.rc q.2 :=
                  fun q hq => hrc q (by simp [hq])
                obtain ⟨cs2', h2, hres', hcs2ne', hnext2', hframe2', hcl2',
                  hlive2', hbound2', hR2', ts2', hvl2', htxt2'⟩ :=
                  hInsertChildren_cow (f + 1) h (p1 :: rest') (i - cnt) s ts'
                    hcl hlive hbound1 hrc1 hvl1 (by simp)
                refine ⟨(cnt, c) :: cs2', h2, ?_, by simp, hnext2', hframe2',
                  hcl2', hlive2', ?_, ?_, ?_⟩
                · simp only [hInsertChildren, if_neg hile, hres']
                · intro q hq
                  rcases List.mem_cons.mp hq with hq1 | hq2
                  · subst hq1
                    show c < h2.next
                    have := hbound (cnt, c) (by simp)
                    omega
                  · exact hbound2' q hq2
                · intro w hw hunref hcsw
                  obtain ⟨hu2, hne2⟩ := hR2' w hw hunref
                    (fun q hq => hcsw q (by simp [hq]))
                  refine ⟨hu2, ?_⟩
                  intro q hq
                  rcases List.mem_cons.mp hq with hq1 | hq2
                  · subst hq1
                    exact hcsw (cnt, c) (by simp)
                  · exact hne2 q hq2
                · refine ⟨tc :: ts2', ?_, ?_⟩
                  · have hvab : viewAt (f + 1) h2 c = some tc := by
                      rw [viewAt_frame (f + 1) h h2 h.next c hframe2' hcl
                        (hbound (cnt, c) (by simp))]
                      exact hva
                    simp only [viewList, hvab, hvl2', if_pos hcc]
                  · rw [textAux_cons, textAux_cons, htxt2',
                      splice_append_right (Node.text tc) (textAux ts') s i
                        (by omega), hlenc]

end

/-! ### Claim theorems -/

/-- Claim C1: for every UTF-8 string `s`, `Rope::from_str(s).to_string()`
returns exactly `s` — construction followed by chunk-concatenating
conversion is the identity on strings. -/
theorem C1_fromStr_toString_roundtrip (s : Text) : (Rope.fromStr s).toText = s :=
  fromStr_text s

/-- Claim C2: for every rope `r`, char index `c ≤ r.len_chars()` and text
`s`, `r.insert(c, s)` succeeds and the new text equals the string-level
splice of `s` into `r`'s previous text at char position `c`; the statement
covers all three insert strategies, which are the three branches of the
embedded `Rope.insertOk`. -/
theorem C2_insert_splice (O : GraphemeOracle) (r : Rope) (c : Nat) (s : Text)
    (h : c ≤ r.lenChars) :
    ∃ r', r.insert O c s = .ok r' ∧
      r'.toText = r.toText.take c ++ s ++ r.toText.drop c := by
  refine ⟨r.insertOk O c s, ?_, ?_⟩
  · rw [Rope.insert, if_pos h]
  · rw [insertOk_text, splice]

/-- Claim C3: splitting at any valid char index and appending the two
pieces back together reproduces the original text. -/
theorem C3_split_append_identity (O : GraphemeOracle) (r : Rope) (c : Nat)
    (h : c ≤ r.lenChars) :
    ((r.splitOff c).1.append O (r.splitOff c).2).toText = r.toText := by
  rw [append_text, (splitOff_text r c).1, (splitOff_text r c).2, List.take_append_drop]

/-- Claim C5: an out-of-bounds index argument to an edit operation yields a
caller-visible failure before any mutation: `insert` past the end and
`remove` with a range violating `a ≤ b ≤ len_chars` both return the
out-of-bounds error and leave the rope value untouched. -/
theorem C5_out_of_bounds_rejected (O : GraphemeOracle) (r : Rope) (c a b : Nat)
    (s : Text) (hc : r.lenChars < c) (hab : ¬(a ≤ b ∧ b ≤ r.lenChars)) :
    r.insert O c s = .error .outOfBounds ∧ r.remove O a b = .error .outOfBounds := by
  constructor
  · rw [Rope.insert, if_neg (by omega)]
  · rw [Rope.remove, if_neg hab]

/-- Claim C6: `split_off(c)` leaves exactly the chars `[0, c)` in `self`
and returns a rope holding exactly the chars `[c, len_chars)`; the special
cases at `0` and `len_chars` follow (`take 0` is empty and `take len` is
the whole text). -/
theorem C6_splitOff_parts (r : Rope) (c : Nat) (h : c ≤ r.lenChars) :
    (r.splitOff c).1.toText = r.toText.take c ∧
      (r.splitOff c).2.toText = r.toText.drop c :=
  splitOff_text r c

/-- Claim C7: after `self.append(other)` the text of `self` is the
concatenation of the two texts, in all cases, including empty sides and
both graft directions. -/
theorem C7_append_concat (O : GraphemeOracle) (r other : Rope) :
    (r.append O other).toText = r.toText ++ other.toText :=
  append_text O r other

/-- Claim C10: appending an empty rope to a non-empty one returns with
`self` completely untouched (the result is the identical tree — no
copy-on-write clone, seam fix or rebalancing happens, and no swap); and
appending onto an empty rope hands over exactly `other`'s tree by a swap. -/
theorem C10_append_frame (O : GraphemeOracle) (r other : Rope) :
    (other.lenChars = 0 → r.lenChars ≠ 0 → r.append O other = r) ∧
    (r.lenChars = 0 → r.append O other = other) := by
  constructor
  · intro h0 hne
    rw [Rope.append, if_neg hne, if_neg (by omega)]
  · intro h0
    rw [Rope.append, if_pos h0]

/-- Claim C9: `from_reader` consumes the reader to EOF. On a byte stream
that is a valid UTF-8 encoding it returns a rope holding exactly the
decoded text; when the stream is not a valid encoding (including a stream
that ends in the middle of a code point) it fails with `InvalidData`; and
an error of the underlying reader is returned unchanged whenever the loop
reaches it — the data delivered before the error need not be valid, only
no prefix of it may leave a greedy-undecodable tail filling the whole
read buffer (the one condition under which the full-buffer `InvalidData`
check preempts the error, faithfully to the code); in any case, with an
error queued the result can only be `InvalidData` or that very error,
never success or a different error. -/
theorem C9_fromReader_spec (events : List ReadEvent) :
    ((∀ ev ∈ events, ∃ bs, ev = ReadEvent.chunk bs ∧ bs ≠ []) →
      (∀ s : Text, streamBytes events = encodeUtf8 s →
        ∃ rp, Rope.fromReader events = .ok rp ∧ rp.toText = s) ∧
      ((∀ s : Text, streamBytes events ≠ encodeUtf8 s) →
        Rope.fromReader events = .error .invalidData)) ∧
    (∀ (evs rest2 : List ReadEvent) (e : Nat),
      events = evs ++ ReadEvent.ioError e :: rest2 →
      (∀ ev ∈ evs, ∃ bs, ev = ReadEvent.chunk bs ∧ bs ≠ []) →
      (∀ n, (utf8DecodeGreedy ((streamBytes evs).take n)).2.length <
        BUFFER_SIZE) →
      Rope.fromReader events = .error (.ioError e)) ∧
    (∀ (evs rest2 : List ReadEvent) (e : Nat),
      events = evs ++ ReadEvent.ioError e :: rest2 →
      (∀ ev ∈ evs, ∃ bs, ev = ReadEvent.chunk bs ∧ bs ≠ []) →
      Rope.fromReader events = .error .invalidData ∨
        Rope.fromReader events = .error (.ioError e)) := by
  refine ⟨?_, ?_, ?_⟩
  · intro hchunks
    constructor
    · intro s hs
      refine ⟨Rope.fromStr s, ?_, fromStr_text s⟩
      have h := fromReaderLoop_ok events [] [] s hchunks
        (by rw [List.nil_append]; exact hs) (by decide)
      rw [List.nil_append] at h
      exact h
    · intro hnone
      cases hres : Rope.fromReader events with
      | ok rp =>
        exfalso
        have hres2 : fromReaderLoop events [] [] = .ok rp := hres
        obtain ⟨s2, hs2⟩ := fromReaderLoop_ok_bytes events [] [] rp hchunks
          (by decide) hres2
        rw [List.nil_append] at hs2
        exact hnone s2 hs2
      | error er =>
        cases er with
        | invalidData => rfl
        | ioError e0 =>
          exfalso
          have hres2 : fromReaderLoop events [] [] = .error (.ioError e0) := hres
          exact fromReaderLoop_not_ioError events [] [] e0 hchunks hres2
  · intro evs rest2 e heq hch hpref
    subst heq
    have hge : (utf8DecodeGreedy ([] : List Nat)).2 = [] := by
      rw [greedy_eq_none [] rfl]
    have h := fromReaderLoop_err2 evs e rest2 [] [] hch
      (by
        intro n
        rw [List.nil_append]
        exact hpref n)
    rw [hge] at h
    exact h
  · intro evs rest2 e heq hch
    subst heq
    exact fromReaderLoop_dichotomy evs e rest2 [] [] hch
      (by rw [BUFFER_SIZE_eq]; decide)

/-- Claim C8: clones are isolated by copy-on-write.  After `r2 = r.clone()`
(which only bumps the shared root's reference count), an insert on `r`
succeeds and returns a fresh root; every node record that existed before
the edit is untouched, so `r2` still reads exactly the text from the time
of cloning, while the edited rope reads the spliced text.  The isolation
is forced by the reference counts: `makeMut` copies a node exactly when
its count exceeds one, and the clone makes every node on the edit path
shared. -/
theorem C8_clone_isolation (h : Heap) (root fuel i : Nat) (s : Text) (t : Node)
    (hcl : h.closed) (hlive : h.live) (hroot : root < h.next)
    (hview : viewAt fuel h root = some t) :
    ∃ h2, hInsert fuel (cloneRope h root) root i s = some (h.next, h2) ∧
      heapText fuel h2 root = some t.text ∧
      heapText fuel h2 h.next = some (splice t.text i s) := by
  have h1cl : (cloneRope h root).closed := fun j hj c hc => hcl j hj c hc
  have h1live : (cloneRope h root).live := by
    intro j hj
    show 1 ≤ (if j = root then h.rc j + 1 else h.rc j)
    have := hlive j hj
    split <;> omega
  have h1rc : 2 ≤ (cloneRope h root).rc root := by
    show 2 ≤ (if root = root then h.rc root + 1 else h.rc root)
    rw [if_pos rfl]
    have := hlive root hroot
    omega
  have h1view : viewAt fuel (cloneRope h root) root = some t := by
    rw [viewAt_frame fuel h (cloneRope h root) h.next root
      (fun j hj => rfl) hcl hroot]
    exact hview
  obtain ⟨h2, hres, hnext2, hframe2, hcl2, hlive2, hR2, t2, hv2, ht2⟩ :=
    hInsert_cow fuel (cloneRope h root) root i s t h1cl h1live hroot h1rc h1view
  have hres2 : hInsert fuel (cloneRope h root) root i s = some (h.next, h2) := hres
  have hv2b : viewAt fuel h2 h.next = some t2 := hv2
  refine ⟨h2, hres2, ?_, ?_⟩
  · have hvr : viewAt fuel h2 root = some t := by
      rw [viewAt_frame fuel (cloneRope h root) h2 h.next root
        (fun j hj => hframe2 j hj) (fun j hj c hc => hcl j hj c hc) hroot]
      exact h1view
    rw [heapText, hvr, Option.map]
  · rw [heapText, hv2b, Option.map, ht2]

/-! ### Witnesses: each hypothesis-carrying claim theorem applied at a
concrete input (scenario S1 of the spec for C2). -/

/-- Witness for C2: scenario S1 — starting from the empty rope, inserting
"Hello world!" at 0 and then "zopter" at 3 yields "Helzopterlo world!"
with 18 chars. -/
theorem C2_insert_splice_witness :
    (3 ≤ (Rope.new.insertOk crlfOracle 0 "Hello world!".toList).lenChars) ∧
    (∃ r', (Rope.new.insertOk crlfOracle 0 "Hello world!".toList).insert crlfOracle 3
        "zopter".toList = .ok r' ∧
      r'.toText =
        (Rope.new.insertOk crlfOracle 0 "Hello world!".toList).toText.take 3 ++
          "zopter".toList ++
          (Rope.new.insertOk crlfOracle 0 "Hello world!".toList).toText.drop 3) ∧
    ((Rope.new.insertOk crlfOracle 0 "Hello world!".toList).insertOk crlfOracle 3
        "zopter".toList).toText = "Helzopterlo world!".toList ∧
    ((Rope.new.insertOk crlfOracle 0 "Hello world!".toList).insertOk crlfOracle 3
        "zopter".toList).lenChars = 18 := by
  have h1 : 3 ≤ (Rope.new.insertOk crlfOracle 0 "Hello world!".toList).lenChars := by
    simp +decide [Rope.insertOk, Rope.new, Rope.lenChars, Node.insertRec, leafInsert,
      splice, textBytes, charBytes, MAX_BYTES, Node.fixGraphemeSeam, fixSeamLeaves,
      fixSeamPair, Node.withLeaves, withLeavesAux, Node.leaves, leavesAux, Node.text,
      Node.charCount, crlfOracle, textAux]
  refine ⟨h1, C2_insert_splice crlfOracle _ 3 _ h1, ?_, ?_⟩ <;>
    simp +decide [Rope.insertOk, Rope.new, Rope.toText, Rope.lenChars, Node.insertRec,
      leafInsert, splice, textBytes, charBytes, MAX_BYTES, Node.fixGraphemeSeam,
      fixSeamLeaves, fixSeamPair, Node.withLeaves, withLeavesAux, Node.leaves,
      leavesAux, Node.text, Node.charCount, crlfOracle, textAux, insertChildren]

/-- Witness for C3: split-append identity on a concrete five-char rope at
index 2. -/
theorem C3_split_append_identity_witness :
    2 ≤ (Rope.mk (Node.leaf "Hello".toList)).lenChars ∧
    (((Rope.mk (Node.leaf "Hello".toList)).splitOff 2).1.append crlfOracle
        ((Rope.mk (Node.leaf "Hello".toList)).splitOff 2).2).toText =
      (Rope.mk (Node.leaf "Hello".toList)).toText :=
  ⟨by decide, C3_split_append_identity crlfOracle _ 2 (by decide)⟩

/-- Witness for C5: inserting past the end of the empty rope and removing
an inverted range both fail with the out-of-bounds error. -/
theorem C5_out_of_bounds_rejected_witness :
    Rope.new.lenChars < 1 ∧ ¬(2 ≤ 1 ∧ 1 ≤ Rope.new.lenChars) ∧
    Rope.new.insert crlfOracle 1 "x".toList = .error .outOfBounds ∧
    Rope.new.remove crlfOracle 2 1 = .error .outOfBounds := by
  refine ⟨by decide, by decide, ?_⟩
  have h := C5_out_of_bounds_rejected crlfOracle Rope.new 1 2 1 "x".toList
    (by decide) (by decide)
  exact ⟨h.1, h.2⟩

/-- Witness for C6: splitting a concrete five-char rope at index 2 leaves
the first two chars and returns the last three. -/
theorem C6_splitOff_parts_witness :
    2 ≤ (Rope.mk (Node.leaf "Hello".toList)).lenChars ∧
    ((Rope.mk (Node.leaf "Hello".toList)).splitOff 2).1.toText =
      (Rope.mk (Node.leaf "Hello".toList)).toText.take 2 ∧
    ((Rope.mk (Node.leaf "Hello".toList)).splitOff 2).2.toText =
      (Rope.mk (Node.leaf "Hello".toList)).toText.drop 2 := by
  have h := C6_splitOff_parts (Rope.mk (Node.leaf "Hello".toList)) 2 (by decide)
  exact ⟨by decide, h.1, h.2⟩

/-- Witness for C10: appending an empty rope to a one-char rope returns
the identical tree, and appending a one-char rope onto the empty rope
yields exactly that rope's tree. -/
theorem C10_append_frame_witness :
    ((Rope.new.lenChars = 0 → (Rope.mk (Node.leaf "a".toList)).lenChars ≠ 0 →
        (Rope.mk (Node.leaf "a".toList)).append crlfOracle Rope.new =
          Rope.mk (Node.leaf "a".toList)) ∧
      ((Rope.mk (Node.leaf "a".toList)).lenChars = 0 →
        (Rope.mk (Node.leaf "a".toList)).append crlfOracle Rope.new = Rope.new)) ∧
    ((Rope.new.lenChars ≠ 0 → False) ∨
      Rope.new.append crlfOracle (Rope.mk (Node.leaf "a".toList)) =
        Rope.mk (Node.leaf "a".toList)) := by
  refine ⟨C10_append_frame crlfOracle _ _, Or.inr ?_⟩
  exact (C10_append_frame crlfOracle Rope.new (Rope.mk (Node.leaf "a".toList))).2
    (by decide)

/-- Witness for C9: a reader delivering the bytes of "hi" yields a rope
reading "hi"; a reader delivering the byte 0xFF and then reaching end of
stream fails with `InvalidData`; a reader delivering the invalid byte
0xFF and then failing has its error returned unchanged — the invalid
data does not preempt the error. -/
theorem C9_fromReader_spec_witness :
    (∃ rp, Rope.fromReader [ReadEvent.chunk [104, 105]] = .ok rp ∧
        rp.toText = ['h', 'i']) ∧
    Rope.fromReader [ReadEvent.chunk [255]] = .error .invalidData ∧
    Rope.fromReader [ReadEvent.chunk [255], ReadEvent.ioError 7] =
      .error (.ioError 7) := by
  refine ⟨?_, ?_, ?_⟩
  · exact ((C9_fromReader_spec [ReadEvent.chunk [104, 105]]).1
      (by
        intro ev hev
        rw [List.mem_singleton] at hev
        exact ⟨[104, 105], hev, by decide⟩)).1 ['h', 'i'] (by decide)
  · refine ((C9_fromReader_spec [ReadEvent.chunk [255]]).1 ?_).2 ?_
    · intro ev hev
      rw [List.mem_singleton] at hev
      exact ⟨[255], hev, by decide⟩
    · intro s hs
      have h2 : encodeUtf8 s = 255 :: [] := by
        rw [← hs]
        rfl
      exact head_255_not_encode s [] h2
  · refine (C9_fromReader_spec [ReadEvent.chunk [255], ReadEvent.ioError 7]).2.1
      [ReadEvent.chunk [255]] [] 7 rfl ?_ ?_
    · intro ev hev
      rw [List.mem_singleton] at hev
      exact ⟨[255], hev, by decide⟩
    · intro n
      match n with
      | 0 =>
        rw [List.take_zero, greedy_eq_none [] rfl, BUFFER_SIZE_eq]
        decide
      | n + 1 =>
        have hsb : streamBytes [ReadEvent.chunk [255]] = [255] := by
          simp [streamBytes]
        rw [hsb, List.take_of_length_le (by simp),
          greedy_eq_none [255] (by decide), BUFFER_SIZE_eq]
        decide

/-- A one-leaf heap holding "ab" at id 0, with one owner. -/
def sampleHeap : Heap :=
  { nodes := fun _ => HNode.leaf ['a', 'b']
    rc := fun j => if j = 0 then 1 else 0
    next := 1 }

/-- Witness for C8: cloning the one-leaf rope "ab" and inserting "x" at
char 1 copies the leaf; the clone still reads "ab" while the edited rope
reads "axb". -/
theorem C8_clone_isolation_witness :
    sampleHeap.closed ∧ sampleHeap.live ∧
    viewAt 1 sampleHeap 0 = some (Node.leaf ['a', 'b']) ∧
    ∃ h2, hInsert 1 (cloneRope sampleHeap 0) 0 1 ['x'] = some (1, h2) ∧
      heapText 1 h2 0 = some ['a', 'b'] ∧
      heapText 1 h2 1 = some ['a', 'x', 'b'] := by
  refine ⟨by decide, by decide, rfl, ?_⟩
  obtain ⟨h2, hres, h1t, h2t⟩ := C8_clone_isolation sampleHeap 0 1 1 ['x']
    (Node.leaf ['a', 'b']) (by decide) (by decide) (by decide) rfl
  exact ⟨h2, hres, h1t, h2t⟩

end Ropey
